import Mathlib

/-!
Verification of the ankerutil-node sensitive-data core: the envelope cipher
with its key-version registry (`src/sensitive/index.ts`, two source lineages:
the `SensitiveData` class and the `Encryption` class), the path parser
(`src/typeorm/hash.ts` / `json` module) and the JSON field walker
(`src/typeorm/subscriber.ts`).

JavaScript strings are modelled as `List Char` (`Str`).  The AES-128-CBC
primitive and SHA-256 are modelled as parameters (a `Prims` structure): the
development proves its theorems for every parameter satisfying the contract
`GoodPrims` that node's `crypto` module provides (CBC decryption inverts
encryption under the same key, ciphertexts are base64 so they contain no `^`
separator and are non-empty for non-empty input, digests are 64 lowercase hex
characters).  The randomness consumed by one encryption call (the data key
from `generateAesKey` and the two IVs from `crypto.randomBytes`) is passed
explicitly as an `Rnd` record.  A thrown JavaScript exception is modelled as
`Option.none` of the function's result type.
-/

/-- JavaScript strings, modelled as lists of characters (UTF-16 units). -/
abbrev Str := List Char

/-- The ciphertext field separator used by the wire format. -/
def caret : Char := '^'

/-- `s.split('^')` of JavaScript: splitting `""` yields `[""]`, separators at
the ends yield empty fields. -/
def splitCaret : Str → List Str
  | [] => [[]]
  | c :: rest =>
    if c = caret then [] :: splitCaret rest
    else
      match splitCaret rest with
      | [] => [[c]]
      | s :: ss => (c :: s) :: ss

theorem splitCaret_ne_nil (l : Str) : splitCaret l ≠ [] := by
  induction l with
  | nil => simp [splitCaret]
  | cons c rest ih =>
    simp only [splitCaret]
    split
    · simp
    · cases h : splitCaret rest with
      | nil => simp
      | cons s ss => simp

/-- Splitting a separator-free string returns the one-element list. -/
theorem splitCaret_noSep (l : Str) (h : caret ∉ l) : splitCaret l = [l] := by
  induction l with
  | nil => rfl
  | cons c rest ih =>
    simp only [List.mem_cons, not_or] at h
    have hc : ¬c = caret := fun hc => h.1 hc.symm
    have ihr := ih h.2
    simp only [splitCaret, if_neg hc, ihr]

/-- Splitting distributes over the first separator when the prefix is
separator-free. -/
theorem splitCaret_append (a b : Str) (h : caret ∉ a) :
    splitCaret (a ++ caret :: b) = a :: splitCaret b := by
  induction a with
  | nil => simp [splitCaret]
  | cons c rest ih =>
    simp only [List.mem_cons, not_or] at h
    have hc : ¬c = caret := fun hc => h.1 hc.symm
    have ihr := ih h.2
    simp only [List.cons_append, splitCaret, if_neg hc, List.append_eq, ihr]

/-- The whitespace set removed by JavaScript's `String.prototype.trim`
(restricted to the common ASCII whitespace characters; only the fact that
`^`, base64, and hex characters are not whitespace is used). -/
def isWs (c : Char) : Bool :=
  c = ' ' || c = '\t' || c = '\n' || c = '\r'

/-- `value.trim()` of JavaScript. -/
def jsTrim (s : Str) : Str :=
  ((s.dropWhile isWs).reverse.dropWhile isWs).reverse

theorem mem_dropWhile_of_not (p : Char → Bool) (l : Str) (x : Char)
    (hx : x ∈ l) (hp : p x = false) : x ∈ l.dropWhile p := by
  induction l with
  | nil => cases hx
  | cons c rest ih =>
    by_cases hc : p c
    · rw [List.dropWhile_cons_of_pos hc]
      rcases List.mem_cons.mp hx with h | h
      · subst h; rw [hp] at hc; cases hc
      · exact ih h
    · rw [List.dropWhile_cons_of_neg hc]
      exact hx

/-- A string containing a non-whitespace character does not trim to empty. -/
theorem jsTrim_ne_nil_of_mem (s : Str) (x : Char) (hx : x ∈ s)
    (hp : isWs x = false) : jsTrim s ≠ [] := by
  intro h
  have h1 : x ∈ (s.dropWhile isWs) := mem_dropWhile_of_not _ _ _ hx hp
  have h2 : x ∈ (s.dropWhile isWs).reverse.dropWhile isWs :=
    mem_dropWhile_of_not _ _ _ (List.mem_reverse.mpr h1) hp
  have h3 : x ∈ jsTrim s := List.mem_reverse.mpr h2
  rw [h] at h3
  cases h3

/-- Lexicographic comparison of strings by UTF-16 code unit, as used by
JavaScript's default `Array.prototype.sort` on strings. -/
def lexLe : Str → Str → Bool
  | [], _ => true
  | _ :: _, [] => false
  | a :: as, b :: bs =>
    if a.toNat < b.toNat then true
    else if b.toNat < a.toNat then false
    else lexLe as bs

theorem lexLe_refl (l : Str) : lexLe l l = true := by
  induction l with
  | nil => rfl
  | cons c rest ih => simp [lexLe, ih]

theorem lexLe_total (a b : Str) : lexLe a b = true ∨ lexLe b a = true := by
  induction a generalizing b with
  | nil => left; rfl
  | cons x xs ih =>
    cases b with
    | nil => right; rfl
    | cons y ys =>
      by_cases h1 : x.toNat < y.toNat
      · left; simp [lexLe, h1]
      · by_cases h2 : y.toNat < x.toNat
        · right; simp [lexLe, h2]
        · rcases ih ys with h | h
          · left; simp [lexLe, h1, h2, h]
          · right; simp [lexLe, h1, h2, h]

theorem lexLe_trans (a b c : Str) (hab : lexLe a b = true)
    (hbc : lexLe b c = true) : lexLe a c = true := by
  induction a generalizing b c with
  | nil => rfl
  | cons x xs ih =>
    cases b with
    | nil => simp [lexLe] at hab
    | cons y ys =>
      cases c with
      | nil => simp [lexLe] at hbc
      | cons z zs =>
        simp only [lexLe] at hab hbc ⊢
        rcases Nat.lt_trichotomy x.toNat y.toNat with h1 | h1 | h1
        · rcases Nat.lt_trichotomy y.toNat z.toNat with h2 | h2 | h2
          · rw [if_pos (by omega)]
          · rw [if_pos (by omega)]
          · exfalso
            rw [if_neg (by omega), if_pos (by omega)] at hbc
            exact Bool.false_ne_true hbc
        · rcases Nat.lt_trichotomy y.toNat z.toNat with h2 | h2 | h2
          · rw [if_pos (by omega)]
          · rw [if_neg (by omega), if_neg (by omega)] at hab hbc ⊢
            exact ih ys zs hab hbc
          · exfalso
            rw [if_neg (by omega), if_pos (by omega)] at hbc
            exact Bool.false_ne_true hbc
        · exfalso
          rw [if_neg (by omega), if_pos (by omega)] at hab
          exact Bool.false_ne_true hab

/-- The sort relation passed to Mathlib's `insertionSort`, mirroring
`Object.keys(...).sort()`. -/
def lexR (a b : Str) : Prop := lexLe a b = true

instance : DecidableRel lexR := fun a b => Bool.decEq (lexLe a b) true

instance : IsTotal Str lexR := ⟨fun a b => lexLe_total a b⟩

instance : IsTrans Str lexR := ⟨fun a b c => lexLe_trans a b c⟩

instance : IsRefl Str lexR := ⟨fun a => lexLe_refl a⟩

theorem mem_of_getLast?_eq (l : List Str) (m : Str)
    (h : l.getLast? = some m) : m ∈ l := by
  induction l with
  | nil => simp at h
  | cons a rest ih =>
    cases rest with
    | nil =>
      simp at h
      simp [h]
    | cons b t =>
      rw [List.getLast?_cons_cons] at h
      exact List.mem_cons_of_mem _ (ih h)

/-- In a sorted list the last element is an upper bound. -/
theorem sorted_rel_getLast {r : Str → Str → Prop} [IsRefl Str r]
    (l : List Str) (m : Str) (hm : l.getLast? = some m)
    (hs : l.Sorted r) : ∀ x ∈ l, r x m := by
  induction l with
  | nil => simp at hm
  | cons a rest ih =>
    intro x hx
    cases rest with
    | nil =>
      simp at hm hx
      subst hm; subst hx
      exact IsRefl.refl x
    | cons b t =>
      rw [List.getLast?_cons_cons] at hm
      rw [List.sorted_cons] at hs
      have hmem : m ∈ b :: t := mem_of_getLast?_eq _ _ hm
      rcases List.mem_cons.mp hx with h | h
      · subst h
        exact hs.1 m hmem
      · exact ih hm hs.2 x h

/-- Lowercase hexadecimal digit test (`crypto` digests and `toString('hex')`
produce only these characters). -/
def isHexLower (c : Char) : Bool :=
  (('0' ≤ c) && (c ≤ '9')) || (('a' ≤ c) && (c ≤ 'f'))

/-- Hexadecimal digit test accepting both cases, as `Buffer.from(s, 'hex')`
does. -/
def isHexAny (c : Char) : Bool :=
  isHexLower c || (('A' ≤ c) && (c ≤ 'F'))

/-- A string of exactly `n` lowercase hex characters. -/
def hexLower (n : Nat) (s : Str) : Bool :=
  (s.length == n) && s.all isHexLower

/-- The number of bytes `Buffer.from(s, 'hex')` yields: node consumes hex
digit pairs from the left and stops at the first character that cannot
extend a full pair. -/
def hexParsedBytes : Str → Nat
  | a :: b :: rest => if isHexAny a && isHexAny b then 1 + hexParsedBytes rest else 0
  | _ => 0

theorem caret_not_hexLower : isHexLower caret = false := by decide

theorem caret_not_ws : isWs caret = false := by decide

theorem hexLower_ne_nil (n : Nat) (s : Str) (hn : n ≠ 0)
    (h : hexLower n s = true) : s ≠ [] := by
  intro hs
  subst hs
  simp [hexLower] at h
  exact hn h.symm

theorem hexLower_no_caret (n : Nat) (s : Str) (h : hexLower n s = true) :
    caret ∉ s := by
  intro hc
  simp only [hexLower, Bool.and_eq_true, List.all_eq_true] at h
  have := h.2 caret hc
  rw [caret_not_hexLower] at this
  cases this

/-- The cryptographic primitives the implementation obtains from node's
`crypto` module.  `aesEnc key iv p` stands for
`base64(iv || AES-128-CBC-Encrypt(key, pkcs7(p)))`; `aesDec key c` stands for
the matching decryption, with `none` modelling a thrown error (bad base64,
bad padding); `sha256 s` is the lowercase hex SHA-256 digest of `s`. -/
structure Prims where
  aesEnc : Str → Str → Str → Str
  aesDec : Str → Str → Option Str
  sha256 : Str → Str

/-- The contract node's `crypto` module provides for the primitives:
decryption with the same key inverts encryption — but only for keys whose
hex decoding is exactly 16 bytes, the only key length
`createDecipheriv('aes-128-cbc', ...)` accepts; ciphertexts are base64
strings (hence free of the `^` separator and non-empty for non-empty
plaintext); digests are 64 lowercase hex characters. -/
structure GoodPrims (P : Prims) : Prop where
  dec_enc : ∀ key iv p, hexParsedBytes key = 16 →
    P.aesDec key (P.aesEnc key iv p) = some p
  enc_no_caret : ∀ key iv p, caret ∉ P.aesEnc key iv p
  enc_ne_nil : ∀ key iv p, p ≠ [] → P.aesEnc key iv p ≠ []
  sha_hex : ∀ s, hexLower 64 (P.sha256 s) = true

/-- The other half of node's key-length check: with a key that does not
decode to exactly 16 bytes, `createDecipheriv('aes-128-cbc', ...)` throws
`ERR_CRYPTO_INVALID_KEYLEN` before looking at the ciphertext, so the
decryption primitive fails on every input. -/
def decRejectsBadKeyLen (P : Prims) : Prop :=
  ∀ key c, hexParsedBytes key ≠ 16 → P.aesDec key c = none

/-- The randomness one encryption call draws: `generateAesKey()` (16 random
bytes rendered as 32 lowercase hex characters) and the two fresh IVs of the
two `aesCbcEncrypt` calls. -/
structure Rnd where
  dataKey : Str
  ivSecret : Str
  ivEnvelope : Str

/-- What `crypto.randomBytes(16).toString('hex')` guarantees about the data
key. -/
def goodRnd (rnd : Rnd) : Bool := hexLower 32 rnd.dataKey

theorem goodRnd_dataKey_ne_nil (rnd : Rnd) (h : goodRnd rnd = true) :
    rnd.dataKey ≠ [] :=
  hexLower_ne_nil 32 _ (by decide) h

theorem isHexAny_of_isHexLower (c : Char) (h : isHexLower c = true) :
    isHexAny c = true := by
  simp [isHexAny, h]

theorem hexParsedBytes_all_hex :
    ∀ (s : Str), (∀ c ∈ s, isHexLower c = true) →
      hexParsedBytes s = s.length / 2
  | [], _ => rfl
  | [a], _ => by simp [hexParsedBytes]
  | a :: b :: rest, h => by
    have ha := isHexAny_of_isHexLower a (h a (by simp))
    have hb := isHexAny_of_isHexLower b (h b (by simp))
    have ih := hexParsedBytes_all_hex rest
      (fun c hc => h c (by simp [hc]))
    simp only [hexParsedBytes, ha, hb, Bool.and_self, if_true, ih,
      List.length_cons]
    omega

/-- `randomBytes(16).toString('hex')` decodes back to exactly 16 bytes. -/
theorem goodRnd_dataKey_hex16 (rnd : Rnd) (h : goodRnd rnd = true) :
    hexParsedBytes rnd.dataKey = 16 := by
  simp only [goodRnd, hexLower, Bool.and_eq_true, beq_iff_eq,
    List.all_eq_true] at h
  rw [hexParsedBytes_all_hex rnd.dataKey h.2, h.1]

/-- First-match association lookup, modelling `map[key]` on a plain object
(keys are unique by construction, later writes via `assocSet` update in
place). -/
def assocGet (m : List (Str × Str)) (k : Str) : Option Str :=
  match m with
  | [] => none
  | (k1, v1) :: rest => if k1 = k then some v1 else assocGet rest k

/-- `map[key] = value` on a plain object: updates the existing entry in
place (JavaScript keeps the original insertion position) or appends. -/
def assocSet (m : List (Str × Str)) (k v : Str) : List (Str × Str) :=
  match m with
  | [] => [(k, v)]
  | (k1, v1) :: rest => if k1 = k then (k, v) :: rest else (k1, v1) :: assocSet rest k v

/-- `Object.keys`, in insertion order. -/
def assocKeys (m : List (Str × Str)) : List Str := m.map Prod.fst

theorem assocGet_isSome_of_mem_keys (m : List (Str × Str)) (k : Str)
    (h : k ∈ assocKeys m) : (assocGet m k).isSome = true := by
  induction m with
  | nil => cases h
  | cons p rest ih =>
    obtain ⟨k1, v1⟩ := p
    simp only [assocKeys, List.map_cons, List.mem_cons] at h
    simp only [assocGet]
    by_cases hk : k1 = k
    · simp [hk]
    · rcases h with h | h
      · exact absurd h.symm hk
      · simp only [if_neg hk]
        exact ih h

theorem assocKeys_set (m : List (Str × Str)) (k v : Str) (x : Str)
    (h : x ∈ assocKeys (assocSet m k v)) : x ∈ assocKeys m ∨ x = k := by
  induction m with
  | nil =>
    simp [assocSet, assocKeys] at h
    right; exact h
  | cons p rest ih =>
    obtain ⟨k1, v1⟩ := p
    simp only [assocSet] at h
    by_cases hk : k1 = k
    · rw [if_pos hk] at h
      simp only [assocKeys, List.map_cons, List.mem_cons] at h ⊢
      rcases h with h | h
      · right; exact h
      · left; right; exact h
    · rw [if_neg hk] at h
      simp only [assocKeys, List.map_cons, List.mem_cons] at h ⊢
      rcases h with h | h
      · left; left; exact h
      · rcases ih h with h2 | h2
        · left; right; exact h2
        · right; exact h2

theorem assocGet_mem (m : List (Str × Str)) (k w : Str)
    (h : assocGet m k = some w) : (k, w) ∈ m := by
  induction m with
  | nil => cases h
  | cons p rest ih =>
    obtain ⟨k1, v1⟩ := p
    simp only [assocGet] at h
    by_cases hk : k1 = k
    · rw [if_pos hk] at h
      cases h
      subst hk
      exact List.mem_cons_self _ _
    · rw [if_neg hk] at h
      exact List.mem_cons_of_mem _ (ih h)

theorem assocSet_entries (m : List (Str × Str)) (k v : Str)
    (Q : Str × Str → Prop) (hm : ∀ p ∈ m, Q p) (hkv : Q (k, v)) :
    ∀ p ∈ assocSet m k v, Q p := by
  induction m with
  | nil =>
    intro p hp
    simp [assocSet] at hp
    subst hp; exact hkv
  | cons q rest ih =>
    obtain ⟨k1, v1⟩ := q
    intro p hp
    simp only [assocSet] at hp
    by_cases hk : k1 = k
    · rw [if_pos hk] at hp
      rcases List.mem_cons.mp hp with h | h
      · subst h; exact hkv
      · exact hm p (List.mem_cons_of_mem _ h)
    · rw [if_neg hk] at hp
      rcases List.mem_cons.mp hp with h | h
      · subst h; exact hm _ (List.mem_cons_self _ _)
      · exact ih (fun q hq => hm q (List.mem_cons_of_mem _ hq)) p h

theorem assocSet_ne_nil (m : List (Str × Str)) (k v : Str) :
    assocSet m k v ≠ [] := by
  cases m with
  | nil => simp [assocSet]
  | cons p rest =>
    obtain ⟨k1, v1⟩ := p
    simp only [assocSet]
    split <;> simp

/-- The mutable fields shared by the `SensitiveData` and `Encryption`
classes. -/
structure SDState where
  sensitiveDataKey : Option Str
  sensitiveRootKey : List (Str × Str)
  sensitiveRootKeyVersion : Option Str
  sensitiveRootKeyValue : Option Str
deriving DecidableEq

/-- The constructor state of both classes. -/
def newSensitiveData : SDState := ⟨none, [], none, none⟩

/-- `DEFAULT_ROOT_KEY_VERSION` from the `CONSTANTS` table. -/
def defaultRootKeyVersion : Str := ['0', '0', '0', '1']

namespace SensitiveData

/-- The validation-and-insertion loop over `Object.entries(rootKey)` inside
`initSensitiveKey`: each version must have length 4 (the only check on the
version string), each key must have length 32 and decode to 16 bytes; valid
entries are written into `this.sensitiveRootKey` in order.  `none` models
the thrown `Error`.  (The source mutates the map before a later entry can
fail; the claims below only concern successful initialization, so the
partially mutated failure state is not modelled.) -/
def insertRootKeys (m : List (Str × Str)) :
    List (Str × Str) → Option (List (Str × Str))
  | [] => some m
  | (version, key) :: rest =>
    if version.length ≠ 4 then none
    else if key.length ≠ 32 then none
    else if hexParsedBytes key ≠ 16 then none
    else insertRootKeys (assocSet m version key) rest

/-- `SensitiveData.initSensitiveKey(cbcKey, rootKey)` (identical, up to the
error-message strings, to `Encryption.init`): validates the master key
(64 hex characters, 32 bytes), requires a non-empty root-key map, validates
and stores every entry, then sets the current version to the last element of
`Object.keys(map).sort()` and the current value to the entry stored under
it.  `none` models a thrown `Error`. -/
def initSensitiveKey (st : SDState) (cbcKey : Str)
    (rootKey : List (Str × Str)) : Option SDState :=
  if cbcKey.length ≠ 64 then none
  else if hexParsedBytes cbcKey ≠ 32 then none
  else if rootKey = [] then none
  else
    match insertRootKeys st.sensitiveRootKey rootKey with
    | none => none
    | some m =>
      let versions := List.insertionSort lexR (assocKeys m)
      match versions.getLast? with
      | some v => some ⟨some cbcKey, m, some v, assocGet m v⟩
      | none => some ⟨some cbcKey, m, none, none⟩

/-- `SensitiveData.aesCbcEncrypt`: returns `''` on empty plaintext, rethrows
crypto errors (`none`); the only modelled crypto failure is the
`Buffer.from(null, 'hex')` `TypeError` raised when the key is `null`. -/
def aesCbcEncrypt (P : Prims) (iv : Str) (key : Option Str)
    (plaintext : Str) : Option Str :=
  if plaintext = [] then some []
  else
    match key with
    | none => none
    | some k => some (P.aesEnc k iv plaintext)

/-- `SensitiveData.aesCbcDecrypt`: returns `''` on empty ciphertext and
swallows every error into `''` (its `catch` returns the empty string). -/
def aesCbcDecrypt (P : Prims) (key : Option Str) (ciphertext : Str) : Str :=
  if ciphertext = [] then []
  else
    match key with
    | none => []
    | some k => (P.aesDec k ciphertext).getD []

/-- `SensitiveData.aes128Sha256EncryptSensitiveData`: `''` for falsy input,
otherwise digest + data key + the two CBC encryptions assembled as
`version^envelopeKey^digest^secretData`; its `catch` turns any thrown error
into `''`.  (A `null` current version would be interpolated as the string
"null" by the template literal; it is unreachable when the envelope
encryption succeeded, because version and value are set together.) -/
def aes128Sha256EncryptSensitiveData (P : Prims) (st : SDState) (rnd : Rnd)
    (plaintext : Option Str) : Str :=
  match plaintext with
  | none => []
  | some p =>
    if p = [] then []
    else
      let digest := P.sha256 p
      let dataKey := rnd.dataKey
      match aesCbcEncrypt P rnd.ivSecret (some dataKey) p with
      | none => []
      | some secretData =>
        match aesCbcEncrypt P rnd.ivEnvelope st.sensitiveRootKeyValue dataKey with
        | none => []
        | some envelopeKey =>
          (match st.sensitiveRootKeyVersion with
           | some v => v
           | none => ['n', 'u', 'l', 'l']) ++
            caret :: envelopeKey ++ caret :: digest ++ caret :: secretData

/-- `SensitiveData.decryptSensitiveDataByDataKey` (legacy 2-field format):
requires exactly 2 fields, the version equal to `DEFAULT_ROOT_KEY_VERSION`
and non-empty data, then decrypts directly under the master key; every
failure is `''`. -/
def decryptSensitiveDataByDataKey (P : Prims) (st : SDState)
    (ciphertext : Str) : Str :=
  match splitCaret ciphertext with
  | [rootKeyVersion, secretData] =>
    if rootKeyVersion ≠ defaultRootKeyVersion then []
    else if secretData = [] then []
    else aesCbcDecrypt P st.sensitiveDataKey secretData
  | _ => []

/-- `SensitiveData.aes128Sha256DecryptSensitiveData`: on 4 fields runs the
envelope path (version lookup, envelope decryption, data decryption, digest
comparison — every failure is `''`); on any other field count delegates to
the legacy decoder. -/
def aes128Sha256DecryptSensitiveData (P : Prims) (st : SDState)
    (ciphertext : Option Str) : Str :=
  match ciphertext with
  | none => []
  | some c =>
    if c = [] then []
    else
      match splitCaret c with
      | [rootKeyVersion, envelopeKey, digest, secretData] =>
        if rootKeyVersion = [] ∨ envelopeKey = [] ∨ digest = [] ∨ secretData = [] then []
        else
          match assocGet st.sensitiveRootKey rootKeyVersion with
          | none => []
          | some rootKey =>
            let dataKey := aesCbcDecrypt P (some rootKey) envelopeKey
            if dataKey = [] then []
            else
              let p := aesCbcDecrypt P (some dataKey) secretData
              if p = [] then []
              else if P.sha256 p ≠ digest then []
              else p
      | _ => decryptSensitiveDataByDataKey P st c

end SensitiveData

namespace Encryption

/-- `Encryption.init` is `SensitiveData.initSensitiveKey` with different
error-message strings. -/
def init (st : SDState) (cbcKey : Str) (rootKey : List (Str × Str)) :
    Option SDState :=
  SensitiveData.initSensitiveKey st cbcKey rootKey

/-- `Encryption.aesCbcEncrypt`: throws on empty plaintext, wraps and
rethrows crypto errors. -/
def aesCbcEncrypt (P : Prims) (iv : Str) (key : Str)
    (plaintext : Str) : Option Str :=
  if plaintext = [] then none else some (P.aesEnc key iv plaintext)

/-- `Encryption.aesCbcDecrypt`: throws on empty ciphertext, wraps and
rethrows crypto errors. -/
def aesCbcDecrypt (P : Prims) (key : Str) (ciphertext : Str) : Option Str :=
  if ciphertext = [] then none else P.aesDec key ciphertext

/-- `Encryption.encrypt`: throws on falsy plaintext, throws when the keys
are not initialized, and wraps any error from the try block in a rethrown
`Error`; otherwise assembles `version^envelopeKey^digest^secretData`. -/
def encrypt (P : Prims) (st : SDState) (rnd : Rnd)
    (plaintext : Option Str) : Option Str :=
  match plaintext with
  | none => none
  | some p =>
    if p = [] then none
    else
      match st.sensitiveRootKeyValue, st.sensitiveRootKeyVersion with
      | some rkv, some ver =>
        if rkv = [] ∨ ver = [] then none
        else
          match aesCbcEncrypt P rnd.ivSecret rnd.dataKey p with
          | none => none
          | some secretData =>
            match aesCbcEncrypt P rnd.ivEnvelope rkv rnd.dataKey with
            | none => none
            | some envelopeKey =>
              some (ver ++ caret :: envelopeKey ++ caret :: P.sha256 p ++
                caret :: secretData)
      | _, _ => none

/-- `Encryption.decryptSensitiveDataByDataKey`: throws when the master key
is not initialized, requires exactly 2 fields, the default version and
non-empty data, then decrypts directly under the master key. -/
def decryptSensitiveDataByDataKey (P : Prims) (st : SDState)
    (ciphertext : Str) : Option Str :=
  match st.sensitiveDataKey with
  | none => none
  | some mk =>
    if mk = [] then none
    else
      match splitCaret ciphertext with
      | [rootKeyVersion, secretData] =>
        if rootKeyVersion ≠ defaultRootKeyVersion then none
        else if secretData = [] then none
        else aesCbcDecrypt P mk secretData
      | _ => none

/-- `Encryption.decrypt`: throws on falsy input; on 4 fields runs the
envelope path (missing part, unknown version, envelope/data decryption
failure or digest mismatch all throw); on any other field count delegates
to the legacy decoder. -/
def decrypt (P : Prims) (st : SDState) (ciphertext : Option Str) :
    Option Str :=
  match ciphertext with
  | none => none
  | some c =>
    if c = [] then none
    else
      match splitCaret c with
      | [rootKeyVersion, envelopeKey, digest, secretData] =>
        if rootKeyVersion = [] ∨ envelopeKey = [] ∨ digest = [] ∨ secretData = [] then none
        else
          match assocGet st.sensitiveRootKey rootKeyVersion with
          | none => none
          | some rootKey =>
            match aesCbcDecrypt P rootKey envelopeKey with
            | none => none
            | some dataKey =>
              if dataKey = [] then none
              else
                match aesCbcDecrypt P dataKey secretData with
                | none => none
                | some p =>
                  if p = [] then none
                  else if P.sha256 p ≠ digest then none
                  else some p
      | _ => decryptSensitiveDataByDataKey P st c

end Encryption

theorem getLast?_some_of_ne_nil (l : List Str) (h : l ≠ []) :
    ∃ m, l.getLast? = some m := by
  induction l with
  | nil => exact absurd rfl h
  | cons a rest ih =>
    cases rest with
    | nil => exact ⟨a, rfl⟩
    | cons b t =>
      obtain ⟨m, hm⟩ := ih (by simp)
      exact ⟨m, by rw [List.getLast?_cons_cons]; exact hm⟩

namespace SensitiveData

theorem insertRootKeys_ne_nil (es : List (Str × Str)) :
    ∀ m m', insertRootKeys m es = some m' → (m ≠ [] ∨ es ≠ []) → m' ≠ [] := by
  induction es with
  | nil =>
    intro m m' h hne
    simp only [insertRootKeys] at h
    cases h
    rcases hne with h | h
    · exact h
    · exact absurd rfl h
  | cons p rest ih =>
    obtain ⟨ver, key⟩ := p
    intro m m' h hne
    simp only [insertRootKeys] at h
    split at h
    · cases h
    split at h
    · cases h
    split at h
    · cases h
    exact ih _ _ h (Or.inl (assocSet_ne_nil m ver key))

theorem insertRootKeys_entries (es : List (Str × Str)) :
    ∀ m m', insertRootKeys m es = some m' →
      (∀ p ∈ m, p.1.length = 4 ∧ p.2.length = 32 ∧ hexParsedBytes p.2 = 16) →
      ∀ p ∈ m', p.1.length = 4 ∧ p.2.length = 32 ∧ hexParsedBytes p.2 = 16 := by
  induction es with
  | nil =>
    intro m m' h hm
    simp only [insertRootKeys] at h
    cases h
    exact hm
  | cons q rest ih =>
    obtain ⟨ver, key⟩ := q
    intro m m' h hm
    simp only [insertRootKeys] at h
    split at h
    · cases h
    split at h
    · cases h
    split at h
    · cases h
    rename_i h4 h32 h16
    push_neg at h4 h32 h16
    exact ih _ _ h (assocSet_entries m ver key _ hm ⟨h4, h32, h16⟩)

theorem insertRootKeys_keys (es : List (Str × Str)) :
    ∀ m m', insertRootKeys m es = some m' →
      ∀ k ∈ assocKeys m', k ∈ assocKeys m ∨ k ∈ es.map Prod.fst := by
  induction es with
  | nil =>
    intro m m' h k hk
    simp only [insertRootKeys] at h
    cases h
    exact Or.inl hk
  | cons q rest ih =>
    obtain ⟨ver, key⟩ := q
    intro m m' h k hk
    simp only [insertRootKeys] at h
    split at h
    · cases h
    split at h
    · cases h
    split at h
    · cases h
    rcases ih _ _ h k hk with h2 | h2
    · rcases assocKeys_set m ver key k h2 with h3 | h3
      · exact Or.inl h3
      · right
        simp [h3]
    · right
      simp only [List.map_cons, List.mem_cons]
      right; exact h2

/-- Everything a successful `initSensitiveKey` from a state with an empty
root-key map (in particular the constructor state) establishes: the master
key is stored, every stored entry is validated, the stored versions come
from the input map, and the current version/value are the lexicographically
greatest stored version together with its key. -/
theorem initSensitiveKey_facts (st0 : SDState) (cbc : Str)
    (rk : List (Str × Str)) (st : SDState)
    (h0 : st0.sensitiveRootKey = [])
    (h : initSensitiveKey st0 cbc rk = some st) :
    st.sensitiveDataKey = some cbc ∧
    (cbc.length = 64 ∧ hexParsedBytes cbc = 32) ∧
    (∀ p ∈ st.sensitiveRootKey,
      p.1.length = 4 ∧ p.2.length = 32 ∧ hexParsedBytes p.2 = 16) ∧
    (∀ k ∈ assocKeys st.sensitiveRootKey, k ∈ rk.map Prod.fst) ∧
    ∃ v, st.sensitiveRootKeyVersion = some v ∧
      st.sensitiveRootKeyValue = assocGet st.sensitiveRootKey v ∧
      v ∈ assocKeys st.sensitiveRootKey ∧
      ∀ w ∈ assocKeys st.sensitiveRootKey, lexLe w v = true := by
  simp only [initSensitiveKey] at h
  split at h
  · cases h
  split at h
  · cases h
  split at h
  · cases h
  rename_i h64c h32c hrk
  push_neg at h64c h32c
  split at h
  · cases h
  rename_i m hins
  rw [h0] at hins
  have hmn : m ≠ [] := insertRootKeys_ne_nil rk [] m hins (Or.inr hrk)
  have hkeys : assocKeys m ≠ [] := by
    intro hk
    exact hmn (by cases m with
      | nil => rfl
      | cons p t => simp [assocKeys] at hk)
  have hsortn : List.insertionSort lexR (assocKeys m) ≠ [] := by
    intro hs
    have := List.perm_insertionSort lexR (assocKeys m)
    rw [hs] at this
    exact hkeys (this.symm.eq_nil ▸ rfl)
  split at h
  · rename_i v hlast
    cases h
    refine ⟨rfl, ⟨h64c, h32c⟩, ?_, ?_, v, rfl, rfl, ?_, ?_⟩
    · exact insertRootKeys_entries rk [] m hins (by simp)
    · intro k hk
      rcases insertRootKeys_keys rk [] m hins k hk with h2 | h2
      · cases h2
      · exact h2
    · have hv : v ∈ List.insertionSort lexR (assocKeys m) :=
        mem_of_getLast?_eq _ _ hlast
      exact (List.mem_insertionSort lexR).mp hv
    · intro w hw
      have hw2 : w ∈ List.insertionSort lexR (assocKeys m) :=
        (List.mem_insertionSort lexR).mpr hw
      exact sorted_rel_getLast _ v hlast
        (List.sorted_insertionSort lexR (assocKeys m)) w hw2
  · rename_i hlast
    obtain ⟨x, hx⟩ := getLast?_some_of_ne_nil _ hsortn
    rw [hlast] at hx
    cases hx

end SensitiveData

theorem splitCaret_four (v env d sec : Str) (hv : caret ∉ v)
    (henv : caret ∉ env) (hd : caret ∉ d) (hsec : caret ∉ sec) :
    splitCaret (v ++ caret :: env ++ caret :: d ++ caret :: sec) =
      [v, env, d, sec] := by
  have hassoc : v ++ caret :: env ++ caret :: d ++ caret :: sec =
      v ++ caret :: (env ++ caret :: (d ++ caret :: sec)) := by
    simp
  rw [hassoc, splitCaret_append _ _ hv, splitCaret_append _ _ henv,
    splitCaret_append _ _ hd, splitCaret_noSep _ hsec]

/-- The root-key versions of an init map, each free of the `^` separator
(executable so that witnesses can check it by evaluation). -/
def rootKeysNoCaret (rk : List (Str × Str)) : Bool :=
  rk.all (fun p => decide (caret ∉ p.1))

theorem rootKeysNoCaret_spec (rk : List (Str × Str))
    (h : rootKeysNoCaret rk = true) : ∀ p ∈ rk, caret ∉ p.1 := by
  intro p hp
  simp only [rootKeysNoCaret, List.all_eq_true] at h
  exact of_decide_eq_true (h p hp)

namespace SensitiveData

/-- The exact shape of a successful `aes128Sha256EncryptSensitiveData`
output. -/
theorem sdEncrypt_eq (P : Prims) (st : SDState) (rnd : Rnd) (p : Str)
    (hp : p ≠ []) (v k : Str)
    (hver : st.sensitiveRootKeyVersion = some v)
    (hval : st.sensitiveRootKeyValue = some k)
    (hdk : rnd.dataKey ≠ []) :
    aes128Sha256EncryptSensitiveData P st rnd (some p) =
      v ++ caret :: P.aesEnc k rnd.ivEnvelope rnd.dataKey ++
        caret :: P.sha256 p ++ caret :: P.aesEnc rnd.dataKey rnd.ivSecret p := by
  simp only [aes128Sha256EncryptSensitiveData, aesCbcEncrypt, if_neg hp,
    if_neg hdk, hval, hver]

/-- Decrypting a well-formed 4-field ciphertext assembled from the
primitives recovers the plaintext, under any state whose registry maps the
named version to the key that encrypted the envelope. -/
theorem decrypt_of_parts (P : Prims) (hP : GoodPrims P) (st2 : SDState)
    (v k : Str) (rnd : Rnd) (p : Str)
    (hv_ne : v ≠ []) (hv_nc : caret ∉ v)
    (hget : assocGet st2.sensitiveRootKey v = some k)
    (hk16 : hexParsedBytes k = 16) (hdk16 : hexParsedBytes rnd.dataKey = 16)
    (hdk : rnd.dataKey ≠ []) (hp : p ≠ []) :
    aes128Sha256DecryptSensitiveData P st2
      (some (v ++ caret :: P.aesEnc k rnd.ivEnvelope rnd.dataKey ++
        caret :: P.sha256 p ++ caret :: P.aesEnc rnd.dataKey rnd.ivSecret p)) = p := by
  have henv_nc := hP.enc_no_caret k rnd.ivEnvelope rnd.dataKey
  have hsec_nc := hP.enc_no_caret rnd.dataKey rnd.ivSecret p
  have hd_nc := hexLower_no_caret 64 _ (hP.sha_hex p)
  have henv_ne := hP.enc_ne_nil k rnd.ivEnvelope rnd.dataKey hdk
  have hsec_ne := hP.enc_ne_nil rnd.dataKey rnd.ivSecret p hp
  have hd_ne := hexLower_ne_nil 64 _ (by decide) (hP.sha_hex p)
  have hc_ne : v ++ caret :: P.aesEnc k rnd.ivEnvelope rnd.dataKey ++
      caret :: P.sha256 p ++ caret :: P.aesEnc rnd.dataKey rnd.ivSecret p ≠ [] := by
    cases v <;> simp
  simp only [aes128Sha256DecryptSensitiveData, if_neg hc_ne,
    splitCaret_four _ _ _ _ hv_nc henv_nc hd_nc hsec_nc]
  rw [if_neg (by simp [hv_ne, henv_ne, hd_ne, hsec_ne])]
  rw [hget]
  have hdecEnv := hP.dec_enc k rnd.ivEnvelope rnd.dataKey hk16
  have hdecSec := hP.dec_enc rnd.dataKey rnd.ivSecret p hdk16
  simp only [aesCbcDecrypt, if_neg henv_ne, hdecEnv, Option.getD_some,
    if_neg hdk, if_neg hsec_ne, if_neg hp]
  rw [hdecSec]
  simp

/-- Round trip of the `SensitiveData` facade: `decrypt (encrypt s) = s` for
every string `s` (the empty string trivially, `'' → ''`), under any
decrypting state whose registry still maps the encrypting state's current
version to the same root key — provided that version is non-empty and free
of the `^` separator. -/
theorem decrypt_encrypt (P : Prims) (hP : GoodPrims P) (st st2 : SDState)
    (rnd : Rnd) (s : Str) (v k : Str)
    (hver : st.sensitiveRootKeyVersion = some v)
    (hval : st.sensitiveRootKeyValue = some k)
    (hv_ne : v ≠ []) (hv_nc : caret ∉ v)
    (hget2 : assocGet st2.sensitiveRootKey v = some k)
    (hk16 : hexParsedBytes k = 16)
    (hrnd : goodRnd rnd = true) :
    aes128Sha256DecryptSensitiveData P st2
      (some (aes128Sha256EncryptSensitiveData P st rnd (some s))) = s := by
  by_cases hs : s = []
  · subst hs
    simp [aes128Sha256EncryptSensitiveData, aes128Sha256DecryptSensitiveData]
  · rw [sdEncrypt_eq P st rnd s hs v k hver hval
      (goodRnd_dataKey_ne_nil rnd hrnd)]
    exact decrypt_of_parts P hP st2 v k rnd s hv_ne hv_nc hget2
      hk16 (goodRnd_dataKey_hex16 rnd hrnd)
      (goodRnd_dataKey_ne_nil rnd hrnd) hs

end SensitiveData

/-- A concrete stand-in for the CBC primitive, used only to evaluate the
theorems at concrete inputs: it escapes the plaintext into a `^`-free string
(`!` is the escape lead character).  It satisfies `GoodPrims`; no secrecy is
claimed or needed — the development's theorems hold for every primitive
satisfying `GoodPrims`, in particular for the real cipher. -/
def escChar (c : Char) : List Char :=
  if c = '!' then ['!', '!'] else if c = caret then ['!', 's'] else [c]

def esc (s : Str) : Str := s.flatMap escChar

/-- Inverse of `esc`; `none` on strings that are not in its image, playing
the role of a decryption error. -/
def unesc : Str → Option Str
  | [] => some []
  | c :: rest =>
    if c = '!' then
      match rest with
      | [] => none
      | d :: rest1 =>
        if d = '!' then (unesc rest1).map (fun t => '!' :: t)
        else if d = 's' then (unesc rest1).map (fun t => caret :: t)
        else none
    else (unesc rest).map (fun t => c :: t)

theorem unesc_cons_plain (c : Char) (rest : Str) (h : ¬c = '!') :
    unesc (c :: rest) = (unesc rest).map (fun t => c :: t) := by
  rw [unesc.eq_def]
  simp only [if_neg h]

theorem unesc_esc (s : Str) : unesc (esc s) = some s := by
  induction s with
  | nil => rfl
  | cons c rest ih =>
    show unesc (escChar c ++ esc rest) = some (c :: rest)
    by_cases h1 : c = '!'
    · subst h1
      rw [show escChar '!' = ['!', '!'] from rfl]
      rw [show (['!', '!'] ++ esc rest : Str) = '!' :: '!' :: esc rest from rfl]
      rw [unesc.eq_def]
      simp [ih]
    · by_cases h2 : c = caret
      · subst h2
        rw [show escChar caret = ['!', 's'] from by decide]
        rw [show (['!', 's'] ++ esc rest : Str) = '!' :: 's' :: esc rest from rfl]
        rw [unesc.eq_def]
        simp [ih]
      · rw [show escChar c = [c] from by simp [escChar, h1, h2]]
        rw [show (([c] : Str) ++ esc rest) = c :: esc rest from rfl]
        rw [unesc_cons_plain c _ h1, ih]
        rfl

theorem escChar_no_caret (c : Char) : caret ∉ escChar c := by
  intro h
  simp only [escChar] at h
  split at h
  · rcases List.mem_cons.mp h with h2 | h2
    · exact absurd h2 (by decide)
    · rcases List.mem_cons.mp h2 with h3 | h3
      · exact absurd h3 (by decide)
      · cases h3
  · split at h
    · rcases List.mem_cons.mp h with h2 | h2
      · exact absurd h2 (by decide)
      · rcases List.mem_cons.mp h2 with h3 | h3
        · exact absurd h3 (by decide)
        · cases h3
    · rcases List.mem_cons.mp h with h2 | h2
      · rename_i hc
        exact hc h2.symm
      · cases h2

theorem esc_no_caret (s : Str) : caret ∉ esc s := by
  intro h
  rw [esc, List.mem_flatMap] at h
  obtain ⟨b, _, hb⟩ := h
  exact escChar_no_caret b hb

theorem esc_ne_nil (s : Str) (h : s ≠ []) : esc s ≠ [] := by
  cases s with
  | nil => exact absurd rfl h
  | cons c rest =>
    show escChar c ++ esc rest ≠ []
    intro h2
    have := List.append_eq_nil.mp h2
    have hc : escChar c ≠ [] := by
      simp only [escChar]
      split
      · simp
      split <;> simp
    exact hc this.1

/-- A deterministic checksum standing in for SHA-256 (no collision
resistance is needed by any theorem: only determinism and the output
format). -/
def hashNat (s : Str) : Nat :=
  s.foldl (fun a c => a * 31 + c.toNat) 7

def hexDigitChars : List Char := "0123456789abcdef".data

/-- `fuel` hex digits of `n`, least significant first. -/
def natToHex (fuel : Nat) (n : Nat) : Str :=
  match fuel with
  | 0 => []
  | f + 1 => hexDigitChars.getD (n % 16) '0' :: natToHex f (n / 16)

theorem natToHex_length (fuel n : Nat) : (natToHex fuel n).length = fuel := by
  induction fuel generalizing n with
  | zero => rfl
  | succ f ih => simp [natToHex, ih]

theorem hexDigitChars_getD_hexLower : ∀ m < 16,
    isHexLower (hexDigitChars.getD m '0') = true := by
  decide

theorem natToHex_all_hex (fuel n : Nat) :
    ∀ c ∈ natToHex fuel n, isHexLower c = true := by
  induction fuel generalizing n with
  | zero => intro c hc; cases hc
  | succ f ih =>
    intro c hc
    rcases List.mem_cons.mp hc with h | h
    · subst h
      exact hexDigitChars_getD_hexLower _ (Nat.mod_lt _ (by decide))
    · exact ih (n / 16) c h

/-- The 64-hex-character stand-in digest. -/
def toySha (s : Str) : Str := natToHex 64 (hashNat s)

theorem toySha_hex (s : Str) : hexLower 64 (toySha s) = true := by
  simp only [toySha, hexLower, Bool.and_eq_true, beq_iff_eq, List.all_eq_true]
  exact ⟨natToHex_length 64 _, natToHex_all_hex 64 _⟩

/-- The concrete primitive instance. -/
def toyPrims : Prims where
  aesEnc := fun _key _iv p => esc p
  aesDec := fun key c => if hexParsedBytes key = 16 then unesc c else none
  sha256 := fun s => toySha s

theorem toyPrims_good : GoodPrims toyPrims := by
  refine ⟨?_, ?_, ?_, ?_⟩
  · intro key iv p hkey
    simp only [toyPrims, if_pos hkey]
    exact unesc_esc p
  · intro key iv p
    exact esc_no_caret p
  · intro key iv p hp
    exact esc_ne_nil p hp
  · intro s
    exact toySha_hex s

theorem toyPrims_strict : decRejectsBadKeyLen toyPrims := by
  intro key c hkey
  simp only [toyPrims, if_neg hkey]

/-- JSON documents, the trees the field walker traverses. -/
inductive JValue where
  | null : JValue
  | bool (b : Bool) : JValue
  | num (n : Int) : JValue
  | str (s : Str) : JValue
  | arr (elems : List JValue) : JValue
  | obj (fields : List (Str × JValue)) : JValue

/-- `PathSegment` of `src/typeorm/hash.ts` (`json` module); the optional
`isRootArray` field defaults to `undefined`, modelled `false`. -/
structure PathSegment where
  key : Str
  isArray : Bool
  isRootArray : Bool
deriving DecidableEq

/-- `segments[segments.length - 1] = { key: lastSegment.key, isArray: true }`:
note the replacement object carries no `isRootArray` field, so a root marker
loses its flag here. -/
def setLastArray : List PathSegment → List PathSegment
  | [] => []
  | [s] => [⟨s.key, true, false⟩]
  | s :: rest => s :: setLastArray rest

/-- The character loop of `parsePath` (state: accumulated segments, current
key, `isParsingArray`), followed by the final flush of a pending key. -/
def scanLoop : Str → List PathSegment → Str → Bool → List PathSegment
  | [], segs, cur, _ =>
    if cur = [] then segs else segs ++ [⟨cur, false, false⟩]
  | ch :: rest, segs, cur, inB =>
    if ch = '[' then
      if cur ≠ [] then scanLoop rest (segs ++ [⟨cur, true, false⟩]) [] true
      else if segs ≠ [] ∧ inB = false then scanLoop rest (setLastArray segs) [] true
      else scanLoop rest segs cur true
    else if ch = ']' then scanLoop rest segs [] false
    else if ch = '.' ∧ inB = false then
      if cur ≠ [] then scanLoop rest (segs ++ [⟨cur, false, false⟩]) [] inB
      else scanLoop rest segs cur inB
    else scanLoop rest segs (cur ++ [ch]) inB

/-- The scan phase of `parsePath`: the leading `[]` (root-array marker)
special case, then the character loop. -/
def scanPath (path : Str) : List PathSegment :=
  match path with
  | '[' :: ']' :: rest =>
    if rest = [] then [⟨[], true, true⟩]
    else
      match rest with
      | '.' :: rest1 => scanLoop rest1 [⟨[], true, true⟩] [] false
      | _ => scanLoop rest [⟨[], true, true⟩] [] false
  | _ => scanLoop path [] [] false

/-- `parsePath` of `src/typeorm/hash.ts`: scan, then throw
(`Invalid path format`) when any segment has an empty key without being the
root-array marker.  `none` models the thrown error. -/
def parsePath (path : Str) : Option (List PathSegment) :=
  let segs := scanPath path
  if segs.any (fun s => s.key.isEmpty && !s.isRootArray) then none
  else some segs

/-- `EncryptionSubscriber.isAlreadyEncrypted` of
`src/typeorm/subscriber.ts`: non-blank, and either 4 `^`-fields with a
4-character version and non-empty remaining fields, or 2 `^`-fields with
the default legacy version and non-empty data. -/
def isAlreadyEncrypted (value : Str) : Bool :=
  if jsTrim value = [] then false
  else
    match splitCaret value with
    | [version, envelopeKey, digest, secretData] =>
      (version.length == 4) && !envelopeKey.isEmpty && !digest.isEmpty &&
        !secretData.isEmpty
    | [version, secretData] =>
      (version == defaultRootKeyVersion) && !secretData.isEmpty
    | _ => false

/-- JavaScript falsiness of the guard `if (!obj ...)` over document
values. -/
def jsFalsy : JValue → Bool
  | .null => true
  | .bool b => !b
  | .num n => n == 0
  | .str s => s.isEmpty
  | .arr _ => false
  | .obj _ => false

/-- A canonical JavaScript array index ("0", or digits without a leading
zero). -/
def isCanonicalIndex (k : Str) : Bool :=
  match k with
  | [] => false
  | ['0'] => true
  | c :: rest => (('1' ≤ c) && (c ≤ '9')) && rest.all (fun d => ('0' ≤ d) && (d ≤ '9'))

def strToNat (k : Str) : Nat :=
  k.foldl (fun a c => a * 10 + (c.toNat - 48)) 0

def assocGetJ : List (Str × JValue) → Str → Option JValue
  | [], _ => none
  | (k1, v1) :: rest, k => if k1 = k then some v1 else assocGetJ rest k

def assocSetJ : List (Str × JValue) → Str → JValue → List (Str × JValue)
  | [], k, v => [(k, v)]
  | (k1, v1) :: rest, k, v =>
    if k1 = k then (k, v) :: rest else (k1, v1) :: assocSetJ rest k v

/-- `obj[key]` read on a document value: object property, numeric array
index, `undefined` (`none`) otherwise.  (JavaScript's exotic host
properties — string indexing, `length` — are outside the JSON data model
and not modelled.) -/
def jsGet (v : JValue) (k : Str) : Option JValue :=
  match v with
  | .obj fields => assocGetJ fields k
  | .arr xs => if isCanonicalIndex k then xs.get? (strToNat k) else none
  | _ => none

/-- `obj[key] = newVal` on a document value (only reached after a
successful `jsGet`, so the add-new-property case cannot occur on the walked
paths). -/
def jsSet (v : JValue) (k : Str) (newVal : JValue) : JValue :=
  match v with
  | .obj fields => .obj (assocSetJ fields k newVal)
  | .arr xs =>
    if isCanonicalIndex k then .arr (xs.set (strToNat k) newVal) else .arr xs
  | other => other

inductive WalkOp where
  | encrypt
  | decrypt
deriving DecidableEq

/-- The encryption service as the walker sees it (`encrypt`/`decrypt` of
the `Encryption` facade, or any transform in the walker theorems); `none`
is a thrown error. -/
structure EncSvc where
  enc : Str → Option Str
  dec : Str → Option Str

/-- The `for` loop over an array's elements inside `processJsonPath`: each
element is processed in order; a thrown error aborts the loop. -/
def walkList (g : JValue → Option JValue) : List JValue → Option (List JValue)
  | [] => some []
  | x :: xs =>
    match g x with
    | none => none
    | some y =>
      match walkList g xs with
      | none => none
      | some ys => some (y :: ys)

/-- `EncryptionSubscriber.processJsonPath` of `src/typeorm/subscriber.ts`
(the `currentPath` string only feeds log messages and is omitted): the
falsy/empty-segments guard; array segments iterate the addressed array
(warn-and-skip when it is not an array); a final plain segment transforms a
string value — in encrypt mode skipping values that look encrypted and
letting a transform error abort the walk, in decrypt mode catching the
error and keeping the original value; a non-final plain segment recurses
into object-typed values and skips everything else. -/
def processJsonPath (svc : EncSvc) (op : WalkOp) :
    List PathSegment → JValue → Option JValue
  | [], v => some v
  | seg :: rest, v =>
    if jsFalsy v then some v
    else
        if seg.isArray then
          if seg.isRootArray then
            match v with
            | .arr xs =>
              (walkList (fun x => processJsonPath svc op rest x) xs).map .arr
            | _ => some v
          else
            match jsGet v seg.key with
            | some (.arr xs) =>
              (walkList (fun x => processJsonPath svc op rest x) xs).map
                (fun ys => jsSet v seg.key (.arr ys))
            | _ => some v
        else
          match jsGet v seg.key with
          | some (.str s) =>
            if rest.isEmpty then
              match op with
              | .encrypt =>
                if isAlreadyEncrypted s then some v
                else
                  match svc.enc s with
                  | some e => some (jsSet v seg.key (.str e))
                  | none => none
              | .decrypt =>
                match svc.dec s with
                | some d => some (jsSet v seg.key (.str d))
                | none => some v
            else some v
          | some (.obj fs) =>
            if rest.isEmpty then some v
            else (processJsonPath svc op rest (.obj fs)).map (fun w => jsSet v seg.key w)
          | some (.arr xs) =>
            if rest.isEmpty then some v
            else (processJsonPath svc op rest (.arr xs)).map (fun w => jsSet v seg.key w)
          | _ => some v

/-- The walker contract as §4.7 of the spec words it, for a total
transform `f` — the second definition of a refinement pair, to be compared
with `processJsonPath`: one segment consumed per step; an array segment
requires the addressed value (the current value for the root marker, the
keyed value otherwise) to be an array and maps the rest of the path over
its elements, anything else is skipped; a final plain segment replaces a
string leaf by `f leaf`; a non-final plain segment recurses into an
object-typed value ("object" in the JavaScript sense: object or array) and
skips `null` and every non-object. -/
def specWalk (f : Str → Str) : List PathSegment → JValue → JValue
  | [], v => v
  | seg :: rest, v =>
    if seg.isArray then
      if seg.isRootArray then
        match v with
        | .arr xs => .arr (xs.map (specWalk f rest))
        | _ => v
      else
        match jsGet v seg.key with
        | some (.arr xs) => jsSet v seg.key (.arr (xs.map (specWalk f rest)))
        | _ => v
    else
      match jsGet v seg.key with
      | some (.str s) => if rest.isEmpty then jsSet v seg.key (.str (f s)) else v
      | some (.obj fs) =>
        if rest.isEmpty then v else jsSet v seg.key (specWalk f rest (.obj fs))
      | some (.arr xs) =>
        if rest.isEmpty then v else jsSet v seg.key (specWalk f rest (.arr xs))
      | _ => v

/-- A transform that never fails, wrapped as a service. -/
def totalSvc (f : Str → Str) : EncSvc :=
  ⟨fun s => some (f s), fun s => some (f s)⟩

theorem walkList_congr_some (g : JValue → Option JValue) (G : JValue → JValue)
    (xs : List JValue) (h : ∀ x ∈ xs, g x = some (G x)) :
    walkList g xs = some (xs.map G) := by
  induction xs with
  | nil => rfl
  | cons x rest ih =>
    simp only [walkList, h x (List.mem_cons_self x rest),
      ih (fun y hy => h y (List.mem_cons_of_mem x hy)), List.map_cons]

theorem walkList_isSome (g : JValue → Option JValue) (xs : List JValue)
    (h : ∀ x ∈ xs, (g x).isSome = true) : (walkList g xs).isSome = true := by
  induction xs with
  | nil => rfl
  | cons x rest ih =>
    have hx := h x (List.mem_cons_self x rest)
    obtain ⟨y, hy⟩ := Option.isSome_iff_exists.mp hx
    have hr := ih (fun z hz => h z (List.mem_cons_of_mem x hz))
    obtain ⟨ys, hys⟩ := Option.isSome_iff_exists.mp hr
    simp [walkList, hy, hys]

theorem specWalk_falsy (f : Str → Str) (seg : PathSegment)
    (rest : List PathSegment) (v : JValue) (hf : jsFalsy v = true) :
    specWalk f (seg :: rest) v = v := by
  cases v with
  | null => simp [specWalk, jsGet]
  | bool b => simp [specWalk, jsGet]
  | num n => simp [specWalk, jsGet]
  | str s => simp [specWalk, jsGet]
  | arr xs => simp [jsFalsy] at hf
  | obj fs => simp [jsFalsy] at hf

/-- Refinement of the implementation walker against the walker contract of
the spec: in decrypt mode, with a transform that never fails, the walk
never throws and computes exactly the spec-level update. -/
theorem processJsonPath_decrypt_total_spec (f : Str → Str) :
    ∀ (segs : List PathSegment) (v : JValue),
      processJsonPath (totalSvc f) .decrypt segs v = some (specWalk f segs v) := by
  intro segs
  induction segs with
  | nil =>
    intro v
    rfl
  | cons seg rest ih =>
    intro v
    by_cases hf : jsFalsy v = true
    · rw [specWalk_falsy f seg rest v hf]
      simp only [processJsonPath, hf, if_true]
    · by_cases ha : seg.isArray = true
      · by_cases hr : seg.isRootArray = true
        · cases v with
          | arr xs =>
            simp only [processJsonPath, specWalk, hf, ha, hr, if_true, if_false]
            rw [walkList_congr_some _ (specWalk f rest) xs (fun x _ => ih x)]
            rfl
          | null => simp [processJsonPath, specWalk, hf, ha, hr]
          | bool b => simp [processJsonPath, specWalk, hf, ha, hr]
          | num n => simp [processJsonPath, specWalk, hf, ha, hr]
          | str s => simp [processJsonPath, specWalk, hf, ha, hr]
          | obj fs => simp [processJsonPath, specWalk, hf, ha, hr]
        · rcases hg : jsGet v seg.key with _ | w
          · simp [processJsonPath, specWalk, hf, ha, hr, hg]
          · cases w with
            | arr xs =>
              simp only [processJsonPath, specWalk, hf, ha, hr, hg, if_true,
                if_false, Bool.not_eq_true]
              rw [walkList_congr_some _ (specWalk f rest) xs (fun x _ => ih x)]
              rfl
            | null => simp [processJsonPath, specWalk, hf, ha, hr, hg]
            | bool b => simp [processJsonPath, specWalk, hf, ha, hr, hg]
            | num n => simp [processJsonPath, specWalk, hf, ha, hr, hg]
            | str s => simp [processJsonPath, specWalk, hf, ha, hr, hg]
            | obj fs => simp [processJsonPath, specWalk, hf, ha, hr, hg]
      · rcases hg : jsGet v seg.key with _ | w
        · simp [processJsonPath, specWalk, hf, ha, hg]
        · cases w with
          | str s =>
            by_cases he : rest.isEmpty = true
            · simp [processJsonPath, specWalk, hf, ha, hg, he, totalSvc]
            · simp [processJsonPath, specWalk, hf, ha, hg, he]
          | obj fs =>
            by_cases he : rest.isEmpty = true
            · simp [processJsonPath, specWalk, hf, ha, hg, he]
            · simp [processJsonPath, specWalk, hf, ha, hg, he, ih]
          | arr xs =>
            by_cases he : rest.isEmpty = true
            · simp [processJsonPath, specWalk, hf, ha, hg, he]
            · simp [processJsonPath, specWalk, hf, ha, hg, he, ih]
          | null => simp [processJsonPath, specWalk, hf, ha, hg]
          | bool b => simp [processJsonPath, specWalk, hf, ha, hg]
          | num n => simp [processJsonPath, specWalk, hf, ha, hg]

/-- In decrypt mode the walk never throws, whatever the service does: the
only throw site is the leaf transform, and the decrypt branch catches it. -/
theorem processJsonPath_decrypt_isSome (svc : EncSvc) :
    ∀ (segs : List PathSegment) (v : JValue),
      (processJsonPath svc .decrypt segs v).isSome = true := by
  intro segs
  induction segs with
  | nil => intro v; rfl
  | cons seg rest ih =>
    intro v
    by_cases hf : jsFalsy v = true
    · simp [processJsonPath, hf]
    · by_cases ha : seg.isArray = true
      · by_cases hr : seg.isRootArray = true
        · cases v with
          | arr xs =>
            obtain ⟨ys, hys⟩ := Option.isSome_iff_exists.mp
              (walkList_isSome (fun x => processJsonPath svc .decrypt rest x) xs
                (fun x _ => ih x))
            simp [processJsonPath, hf, ha, hr, hys]
          | null => simp [processJsonPath, hf, ha, hr]
          | bool b => simp [processJsonPath, hf, ha, hr]
          | num n => simp [processJsonPath, hf, ha, hr]
          | str s => simp [processJsonPath, hf, ha, hr]
          | obj fs => simp [processJsonPath, hf, ha, hr]
        · rcases hg : jsGet v seg.key with _ | w
          · simp [processJsonPath, hf, ha, hr, hg]
          · cases w with
            | arr xs =>
              obtain ⟨ys, hys⟩ := Option.isSome_iff_exists.mp
                (walkList_isSome (fun x => processJsonPath svc .decrypt rest x) xs
                  (fun x _ => ih x))
              simp [processJsonPath, hf, ha, hr, hg, hys]
            | null => simp [processJsonPath, hf, ha, hr, hg]
            | bool b => simp [processJsonPath, hf, ha, hr, hg]
            | num n => simp [processJsonPath, hf, ha, hr, hg]
            | str s => simp [processJsonPath, hf, ha, hr, hg]
            | obj fs => simp [processJsonPath, hf, ha, hr, hg]
      · rcases hg : jsGet v seg.key with _ | w
        · simp [processJsonPath, hf, ha, hg]
        · cases w with
          | str s =>
            by_cases he : rest.isEmpty = true
            · rcases hd : svc.dec s with _ | d
              · simp [processJsonPath, hf, ha, hg, he, hd]
              · simp [processJsonPath, hf, ha, hg, he, hd]
            · simp [processJsonPath, hf, ha, hg, he]
          | obj fs =>
            by_cases he : rest.isEmpty = true
            · simp [processJsonPath, hf, ha, hg, he]
            · obtain ⟨w, hw⟩ := Option.isSome_iff_exists.mp (ih (JValue.obj fs))
              simp [processJsonPath, hf, ha, hg, he, hw]
          | arr xs =>
            by_cases he : rest.isEmpty = true
            · simp [processJsonPath, hf, ha, hg, he]
            · obtain ⟨w, hw⟩ := Option.isSome_iff_exists.mp (ih (JValue.arr xs))
              simp [processJsonPath, hf, ha, hg, he, hw]
          | null => simp [processJsonPath, hf, ha, hg]
          | bool b => simp [processJsonPath, hf, ha, hg]
          | num n => simp [processJsonPath, hf, ha, hg]

/-- A well-formed 4-field ciphertext passes the already-encrypted
heuristic. -/
theorem isAlreadyEncrypted_four (v env d sec : Str) (hv4 : v.length = 4)
    (hvnc : caret ∉ v) (henvnc : caret ∉ env) (hdnc : caret ∉ d)
    (hsecnc : caret ∉ sec) (henv : env ≠ []) (hd : d ≠ []) (hsec : sec ≠ []) :
    isAlreadyEncrypted (v ++ caret :: env ++ caret :: d ++ caret :: sec) = true := by
  have hmem : caret ∈ v ++ caret :: env ++ caret :: d ++ caret :: sec := by
    refine List.mem_append.mpr (Or.inr ?_)
    exact List.mem_cons_self _ _
  have htrim := jsTrim_ne_nil_of_mem _ caret hmem caret_not_ws
  rw [isAlreadyEncrypted, if_neg htrim,
    splitCaret_four _ _ _ _ hvnc henvnc hdnc hsecnc]
  simp [hv4, henv, hd, hsec]

namespace Encryption

/-- The exact shape of a successful `Encryption.encrypt` output. -/
theorem eEncrypt_eq (P : Prims) (st : SDState) (rnd : Rnd) (p : Str)
    (hp : p ≠ []) (v k : Str)
    (hver : st.sensitiveRootKeyVersion = some v)
    (hval : st.sensitiveRootKeyValue = some k)
    (hv_ne : v ≠ []) (hk_ne : k ≠ []) (hdk : rnd.dataKey ≠ []) :
    encrypt P st rnd (some p) =
      some (v ++ caret :: P.aesEnc k rnd.ivEnvelope rnd.dataKey ++
        caret :: P.sha256 p ++ caret :: P.aesEnc rnd.dataKey rnd.ivSecret p) := by
  simp only [encrypt, aesCbcEncrypt, if_neg hp, if_neg hdk, hval, hver]
  rw [if_neg (by simp [hk_ne, hv_ne])]

/-- A successful `Encryption.encrypt` never returns the empty string: the
result always contains the `^` separator. -/
theorem encrypt_some_ne_nil (P : Prims) (st : SDState) (rnd : Rnd)
    (pt : Option Str) (r : Str) (h : encrypt P st rnd pt = some r) :
    r ≠ [] := by
  match pt with
  | none => cases h
  | some p =>
    by_cases hp : p = []
    · simp [encrypt, hp] at h
    · rcases hval : st.sensitiveRootKeyValue with _ | rkv
      · simp [encrypt, hp, hval] at h
      · rcases hver : st.sensitiveRootKeyVersion with _ | ver
        · simp [encrypt, hp, hval, hver] at h
        · simp only [encrypt, if_neg hp, hval, hver] at h
          by_cases hrv : rkv = [] ∨ ver = []
          · rw [if_pos hrv] at h
            cases h
          · rw [if_neg hrv] at h
            by_cases hdk : rnd.dataKey = []
            · simp [aesCbcEncrypt, if_neg hp, hdk] at h
            · simp only [aesCbcEncrypt, if_neg hp, if_neg hdk] at h
              intro hr
              rw [hr] at h
              cases ver with
              | nil => simp at h
              | cons c t => simp at h

end Encryption

/-- Concrete fixtures evaluating the model: the 64-hex master key and a
32-hex root key of the spec's concrete scenario. -/
def cbcKey0 : Str := List.replicate 64 '0'

def rootKeyHex0 : Str := List.replicate 32 '0'

def exRootKeys : List (Str × Str) := [(defaultRootKeyVersion, rootKeyHex0)]

/-- The state a successful `initSensitiveKey(cbcKey0, {"0001": ...})`
produces. -/
def exSt : SDState :=
  ⟨some cbcKey0, exRootKeys, some defaultRootKeyVersion, some rootKeyHex0⟩

/-- Concrete randomness: a 32-hex data key. -/
def rnd0 : Rnd := ⟨List.replicate 32 'a', [], []⟩

/-- A 4-character version string that contains the field separator; it
passes every `initSensitiveKey` validation (only the length is checked). -/
def badVer : Str := ['0', '^', '0', '1']

def exRootKeysBad : List (Str × Str) := [(badVer, rootKeyHex0)]

def exStBad : SDState :=
  ⟨some cbcKey0, exRootKeysBad, some badVer, some rootKeyHex0⟩

set_option maxRecDepth 10000

/-- C1 (counterexample): the claim as stated — round trip after any
successful key initialization — fails: the version string `"0^01"` passes
`initSensitiveKey` (only its length, 4, is validated), but the encrypt
output then splits into 5 fields, so decryption falls into the legacy
branch and returns `''` instead of the plaintext `"a"`. -/
theorem claim_C1_counterexample :
    SensitiveData.initSensitiveKey newSensitiveData cbcKey0 exRootKeysBad =
      some exStBad ∧
    SensitiveData.aes128Sha256DecryptSensitiveData toyPrims exStBad
      (some (SensitiveData.aes128Sha256EncryptSensitiveData toyPrims exStBad rnd0
        (some ['a']))) = [] ∧
    ([] : Str) ≠ ['a'] :=
  ⟨by decide, by decide, by decide⟩

/-- C1 (amended): for every string `s` — including the empty string,
whitespace-only strings and multi-byte text — after a successful key
initialization in which every registered version string is free of the `^`
field separator, decrypting the result of encrypting `s` returns exactly
`s` (`SensitiveData` facade; the empty string round trips as
`'' → '' → ''`). -/
theorem claim_C1 (P : Prims) (hP : GoodPrims P) (cbc : Str)
    (rk : List (Str × Str)) (st : SDState) (rnd : Rnd) (s : Str)
    (hinit : SensitiveData.initSensitiveKey newSensitiveData cbc rk = some st)
    (hnc : rootKeysNoCaret rk = true) (hrnd : goodRnd rnd = true) :
    SensitiveData.aes128Sha256DecryptSensitiveData P st
      (some (SensitiveData.aes128Sha256EncryptSensitiveData P st rnd (some s))) = s := by
  obtain ⟨hmk, hcbcf, hentries, hkeysin, v, hver, hval, hvmem, hub⟩ :=
    SensitiveData.initSensitiveKey_facts newSensitiveData cbc rk st rfl hinit
  obtain ⟨k, hk⟩ := Option.isSome_iff_exists.mp
    (assocGet_isSome_of_mem_keys _ v hvmem)
  have hval2 : st.sensitiveRootKeyValue = some k := by rw [hval, hk]
  have hvin : v ∈ rk.map Prod.fst := hkeysin v hvmem
  obtain ⟨pv, hpv, hpv2⟩ := List.mem_map.mp hvin
  have hvnc : caret ∉ v := by
    rw [← hpv2]
    exact rootKeysNoCaret_spec rk hnc pv hpv
  have hv4 : v.length = 4 := by
    simp only [assocKeys] at hvmem
    obtain ⟨q, hq, hq2⟩ := List.mem_map.mp hvmem
    have hqv := (hentries q hq).1
    rw [hq2] at hqv
    exact hqv
  have hvne : v ≠ [] := by
    intro h0
    rw [h0] at hv4
    cases hv4
  have hk16 : hexParsedBytes k = 16 :=
    (hentries (v, k) (assocGet_mem _ _ _ hk)).2.2
  exact SensitiveData.decrypt_encrypt P hP st st rnd s v k hver hval2 hvne hvnc
    hk hk16 hrnd

/-- Witness for C1 at the spec's concrete scenario. -/
theorem claim_C1_witness :
    (SensitiveData.initSensitiveKey newSensitiveData cbcKey0 exRootKeys =
      some exSt ∧ rootKeysNoCaret exRootKeys = true ∧ goodRnd rnd0 = true) ∧
    SensitiveData.aes128Sha256DecryptSensitiveData toyPrims exSt
      (some (SensitiveData.aes128Sha256EncryptSensitiveData toyPrims exSt rnd0
        (some ['h', 'i']))) = ['h', 'i'] :=
  ⟨⟨by decide, by decide, by decide⟩,
    claim_C1 toyPrims toyPrims_good cbcKey0 exRootKeys exSt rnd0 ['h', 'i']
      (by decide) (by decide) (by decide)⟩

theorem splitCaret_length (l : Str) :
    (splitCaret l).length = l.count caret + 1 := by
  induction l with
  | nil => rfl
  | cons c rest ih =>
    by_cases hc : c = caret
    · subst hc
      simp [splitCaret, ih, List.count_cons]
    · simp only [splitCaret, if_neg hc]
      cases hs : splitCaret rest with
      | nil => exact absurd hs (splitCaret_ne_nil rest)
      | cons s ss =>
        rw [hs] at ih
        simp only [List.length_cons] at ih ⊢
        rw [List.count_cons]
        simp [hc, ih]

/-- When the field count is neither 2 nor 4, `SensitiveData` decryption
returns `''` (the 4-field match fails and the legacy decoder requires
exactly 2 fields). -/
theorem SensitiveData.decrypt_bad_field_count (P : Prims) (st : SDState)
    (c : Str) (h2 : (splitCaret c).length ≠ 2)
    (h4 : (splitCaret c).length ≠ 4) :
    SensitiveData.aes128Sha256DecryptSensitiveData P st (some c) = [] := by
  by_cases hc : c = []
  · simp [SensitiveData.aes128Sha256DecryptSensitiveData, hc]
  · rcases hs : splitCaret c with _ | ⟨a, _ | ⟨b, _ | ⟨e, _ | ⟨f, _ | ⟨g, t⟩⟩⟩⟩⟩
    · exact absurd hs (splitCaret_ne_nil c)
    · simp [SensitiveData.aes128Sha256DecryptSensitiveData, hc,
        SensitiveData.decryptSensitiveDataByDataKey, hs]
    · rw [hs] at h2
      simp at h2
    · simp [SensitiveData.aes128Sha256DecryptSensitiveData, hc,
        SensitiveData.decryptSensitiveDataByDataKey, hs]
    · rw [hs] at h4
      simp at h4
    · simp [SensitiveData.aes128Sha256DecryptSensitiveData, hc,
        SensitiveData.decryptSensitiveDataByDataKey, hs]

namespace SensitiveData

/-- The current version and key a successful fresh `initSensitiveKey` with
separator-free versions establishes. -/
theorem init_current (cbc : Str) (rk : List (Str × Str)) (st : SDState)
    (hinit : initSensitiveKey newSensitiveData cbc rk = some st)
    (hnc : rootKeysNoCaret rk = true) :
    ∃ v k, st.sensitiveRootKeyVersion = some v ∧
      st.sensitiveRootKeyValue = some k ∧
      assocGet st.sensitiveRootKey v = some k ∧
      v.length = 4 ∧ caret ∉ v ∧ k.length = 32 ∧ hexParsedBytes k = 16 ∧
      st.sensitiveDataKey = some cbc ∧
      v ∈ assocKeys st.sensitiveRootKey ∧
      ∀ w ∈ assocKeys st.sensitiveRootKey, lexLe w v = true := by
  obtain ⟨hmk, hcbcf, hentries, hkeysin, v, hver, hval, hvmem, hub⟩ :=
    initSensitiveKey_facts newSensitiveData cbc rk st rfl hinit
  obtain ⟨k, hk⟩ := Option.isSome_iff_exists.mp
    (assocGet_isSome_of_mem_keys _ v hvmem)
  have hval2 : st.sensitiveRootKeyValue = some k := by rw [hval, hk]
  obtain ⟨pv, hpv, hpv2⟩ := List.mem_map.mp (hkeysin v hvmem)
  have hvnc : caret ∉ v := by
    rw [← hpv2]
    exact rootKeysNoCaret_spec rk hnc pv hpv
  have hv4 : v.length = 4 := by
    simp only [assocKeys] at hvmem
    obtain ⟨q, hq, hq2⟩ := List.mem_map.mp hvmem
    have hqv := (hentries q hq).1
    rw [hq2] at hqv
    exact hqv
  have hk32 : k.length = 32 := (hentries (v, k) (assocGet_mem _ _ _ hk)).2.1
  have hk16 : hexParsedBytes k = 16 :=
    (hentries (v, k) (assocGet_mem _ _ _ hk)).2.2
  exact ⟨v, k, hver, hval2, hk, hv4, hvnc, hk32, hk16, hmk, hvmem, hub⟩

/-- Decrypting a 4-field ciphertext whose digest field is an arbitrary
separator-free non-empty string `D` returns the plaintext exactly when `D`
is its digest, and `''` otherwise. -/
theorem decrypt_parts_digest (P : Prims) (hP : GoodPrims P) (st2 : SDState)
    (v k : Str) (rnd : Rnd) (p D : Str)
    (hv_ne : v ≠ []) (hv_nc : caret ∉ v)
    (hget : assocGet st2.sensitiveRootKey v = some k)
    (hk16 : hexParsedBytes k = 16) (hdk16 : hexParsedBytes rnd.dataKey = 16)
    (hdk : rnd.dataKey ≠ []) (hp : p ≠ [])
    (hD_nc : caret ∉ D) (hD_ne : D ≠ []) :
    aes128Sha256DecryptSensitiveData P st2
      (some (v ++ caret :: P.aesEnc k rnd.ivEnvelope rnd.dataKey ++
        caret :: D ++ caret :: P.aesEnc rnd.dataKey rnd.ivSecret p)) =
      if P.sha256 p = D then p else [] := by
  have henv_nc := hP.enc_no_caret k rnd.ivEnvelope rnd.dataKey
  have hsec_nc := hP.enc_no_caret rnd.dataKey rnd.ivSecret p
  have henv_ne := hP.enc_ne_nil k rnd.ivEnvelope rnd.dataKey hdk
  have hsec_ne := hP.enc_ne_nil rnd.dataKey rnd.ivSecret p hp
  have hc_ne : v ++ caret :: P.aesEnc k rnd.ivEnvelope rnd.dataKey ++
      caret :: D ++ caret :: P.aesEnc rnd.dataKey rnd.ivSecret p ≠ [] := by
    cases v <;> simp
  simp only [aes128Sha256DecryptSensitiveData, if_neg hc_ne,
    splitCaret_four _ _ _ _ hv_nc henv_nc hD_nc hsec_nc]
  rw [if_neg (by simp [hv_ne, henv_ne, hD_ne, hsec_ne])]
  rw [hget]
  have hdecEnv := hP.dec_enc k rnd.ivEnvelope rnd.dataKey hk16
  have hdecSec := hP.dec_enc rnd.dataKey rnd.ivSecret p hdk16
  simp only [aesCbcDecrypt, if_neg henv_ne, hdecEnv, Option.getD_some,
    if_neg hdk, if_neg hsec_ne, if_neg hp]
  rw [hdecSec]
  simp only [Option.getD_some]
  by_cases hsha : P.sha256 p = D
  · simp [hsha]
  · simp [hsha]

end SensitiveData

theorem splitCaret_four_mid_len (v env d1 sec : Str) (hv : caret ∉ v)
    (henv : caret ∉ env) (hsec : caret ∉ sec) :
    (splitCaret (v ++ caret :: env ++ caret :: d1 ++ caret :: sec)).length =
      4 + d1.count caret := by
  have hassoc : v ++ caret :: env ++ caret :: d1 ++ caret :: sec =
      v ++ caret :: (env ++ caret :: (d1 ++ caret :: sec)) := by simp
  rw [hassoc, splitCaret_append _ _ hv, splitCaret_append _ _ henv]
  simp only [List.length_cons]
  rw [splitCaret_length]
  have hsc : sec.count caret = 0 := List.count_eq_zero.mpr hsec
  simp only [List.count_append, List.count_cons]
  simp [hsc]
  omega

/-- Case analysis of the 4-field decrypt path: the result is `''` or the
registry lookup succeeded and the returned plaintext matches the stored
digest. -/
theorem SensitiveData.decrypt4_cases (P : Prims) (st : SDState)
    (c v env d sec : Str) (hsplit : splitCaret c = [v, env, d, sec])
    (hc : c ≠ []) :
    SensitiveData.aes128Sha256DecryptSensitiveData P st (some c) = [] ∨
    ((assocGet st.sensitiveRootKey v).isSome = true ∧
      P.sha256 (SensitiveData.aes128Sha256DecryptSensitiveData P st (some c)) = d) := by
  simp only [SensitiveData.aes128Sha256DecryptSensitiveData, if_neg hc, hsplit]
  split
  · exact Or.inl rfl
  · split
    · exact Or.inl rfl
    · rename_i rk2 hget
      split
      · exact Or.inl rfl
      · split
        · exact Or.inl rfl
        · split
          · exact Or.inl rfl
          · rename_i hsha
            refine Or.inr ⟨by simp [hget], ?_⟩
            push_neg at hsha
            exact hsha

/-- C2: over the `SensitiveData` facade: (i) decrypting a 4-field
ciphertext succeeds (returns a non-empty plaintext) only if its root-key
version is present in the registry and the SHA-256 digest of the returned
plaintext equals the stored digest field — so a wrong plaintext is never
returned; (ii) replacing the digest field of an encrypt output by any
different string makes decryption fail with `''`. -/
theorem claim_C2 (P : Prims) (hP : GoodPrims P) :
    (∀ (st : SDState) (c v env d sec : Str),
      splitCaret c = [v, env, d, sec] →
      SensitiveData.aes128Sha256DecryptSensitiveData P st (some c) ≠ [] →
      (assocGet st.sensitiveRootKey v).isSome = true ∧
        P.sha256 (SensitiveData.aes128Sha256DecryptSensitiveData P st (some c)) = d) ∧
    (∀ (cbc : Str) (rk : List (Str × Str)) (st : SDState) (rnd : Rnd)
      (s c v env d sec d1 : Str),
      SensitiveData.initSensitiveKey newSensitiveData cbc rk = some st →
      rootKeysNoCaret rk = true → goodRnd rnd = true → s ≠ [] →
      SensitiveData.aes128Sha256EncryptSensitiveData P st rnd (some s) = c →
      splitCaret c = [v, env, d, sec] → d1 ≠ d →
      SensitiveData.aes128Sha256DecryptSensitiveData P st
        (some (v ++ caret :: env ++ caret :: d1 ++ caret :: sec)) = []) := by
  constructor
  · intro st c v env d sec hsplit hne
    have hc : c ≠ [] := by
      intro h0
      rw [h0] at hsplit
      simp [splitCaret] at hsplit
    rcases SensitiveData.decrypt4_cases P st c v env d sec hsplit hc with h | h
    · exact absurd h hne
    · exact h
  · intro cbc rk st rnd s c v env d sec d1 hinit hnc hrnd hs henc hsplit hd1
    obtain ⟨v0, k, hver, hval2, hget0, hv4, hvnc, hk32, hk16, hmk, hvmem, hub⟩ :=
      SensitiveData.init_current cbc rk st hinit hnc
    have hdkne := goodRnd_dataKey_ne_nil rnd hrnd
    have hdk16 := goodRnd_dataKey_hex16 rnd hrnd
    have hshape := SensitiveData.sdEncrypt_eq P st rnd s hs v0 k hver hval2 hdkne
    rw [hshape] at henc
    have hsplit0 : splitCaret c =
        [v0, P.aesEnc k rnd.ivEnvelope rnd.dataKey, P.sha256 s,
          P.aesEnc rnd.dataKey rnd.ivSecret s] := by
      rw [← henc]
      exact splitCaret_four _ _ _ _ hvnc
        (hP.enc_no_caret k rnd.ivEnvelope rnd.dataKey)
        (hexLower_no_caret 64 _ (hP.sha_hex s))
        (hP.enc_no_caret rnd.dataKey rnd.ivSecret s)
    rw [hsplit] at hsplit0
    injection hsplit0 with e1 erest
    injection erest with e2 erest
    injection erest with e3 erest
    injection erest with e4 _
    subst e1
    subst e2
    subst e3
    subst e4
    have hv_ne : v ≠ [] := by
      intro h0
      rw [h0] at hv4
      cases hv4
    by_cases hdc : caret ∈ d1
    · have hlen := splitCaret_four_mid_len v
        (P.aesEnc k rnd.ivEnvelope rnd.dataKey) d1
        (P.aesEnc rnd.dataKey rnd.ivSecret s) hvnc
        (hP.enc_no_caret k rnd.ivEnvelope rnd.dataKey)
        (hP.enc_no_caret rnd.dataKey rnd.ivSecret s)
      have hcnt : d1.count caret ≠ 0 := by
        intro h0
        exact (List.count_eq_zero.mp h0) hdc
      apply SensitiveData.decrypt_bad_field_count
      · rw [hlen]
        omega
      · rw [hlen]
        omega
    · by_cases hd1e : d1 = []
      · subst hd1e
        have hc_ne : v ++ caret :: P.aesEnc k rnd.ivEnvelope rnd.dataKey ++
            caret :: ([] : Str) ++
            caret :: P.aesEnc rnd.dataKey rnd.ivSecret s ≠ [] := by
          cases v <;> simp
        simp only [SensitiveData.aes128Sha256DecryptSensitiveData,
          if_neg hc_ne,
          splitCaret_four _ _ _ _ hvnc
            (hP.enc_no_caret k rnd.ivEnvelope rnd.dataKey)
            (by simp : caret ∉ ([] : Str))
            (hP.enc_no_caret rnd.dataKey rnd.ivSecret s)]
        rw [if_pos (by simp)]
      · rw [SensitiveData.decrypt_parts_digest P hP st v k rnd s d1 hv_ne hvnc
          hget0 hk16 hdk16 hdkne hs hdc hd1e]
        rw [if_neg (fun h0 => hd1 h0.symm)]

/-- The concrete encrypt output used by witnesses and its four fields. -/
def cEx : Str :=
  SensitiveData.aes128Sha256EncryptSensitiveData toyPrims exSt rnd0
    (some ['h', 'i'])

def cExEnv : Str := esc rnd0.dataKey

def cExD : Str := toySha ['h', 'i']

def cExSec : Str := esc ['h', 'i']

def zeros64 : Str := List.replicate 64 '0'

/-- Witness for C2: the concrete ciphertext decrypts with a registered
version and matching digest, and the same ciphertext with its digest field
replaced by 64 zeros fails to `''`. -/
theorem claim_C2_witness :
    ((assocGet exSt.sensitiveRootKey defaultRootKeyVersion).isSome = true ∧
      toyPrims.sha256 (SensitiveData.aes128Sha256DecryptSensitiveData toyPrims
        exSt (some cEx)) = cExD) ∧
    SensitiveData.aes128Sha256DecryptSensitiveData toyPrims exSt
      (some (defaultRootKeyVersion ++ caret :: cExEnv ++ caret :: zeros64 ++
        caret :: cExSec)) = [] :=
  ⟨(claim_C2 toyPrims toyPrims_good).1 exSt cEx defaultRootKeyVersion cExEnv
      cExD cExSec (by decide) (by decide),
    (claim_C2 toyPrims toyPrims_good).2 cbcKey0 exRootKeys exSt rnd0
      ['h', 'i'] cEx defaultRootKeyVersion cExEnv cExD cExSec zeros64
      (by decide) (by decide) (by decide) (by decide) (by decide) (by decide)
      (by decide)⟩

/-- C3: evaluation of both facades at null/undefined input and at the
empty string.  `Encryption.encrypt`/`decrypt` throw (`Plaintext cannot be
empty` / `Ciphertext cannot be empty`), and `SensitiveData` returns `''`:
neither facade passes null/undefined through unchanged, and both
short-circuit the empty string instead of processing it through the
pipeline — contradicting the repository README's documented policy
(`encrypt(null)` returns `null`, `encrypt("")` encrypts normally), which is
also the policy the spec adopts. -/
theorem claim_C3_code_eval :
    Encryption.encrypt toyPrims exSt rnd0 none = none ∧
    Encryption.decrypt toyPrims exSt none = none ∧
    Encryption.encrypt toyPrims exSt rnd0 (some []) = none ∧
    SensitiveData.aes128Sha256EncryptSensitiveData toyPrims exSt rnd0 none = [] ∧
    SensitiveData.aes128Sha256EncryptSensitiveData toyPrims exSt rnd0 (some []) = [] ∧
    SensitiveData.aes128Sha256DecryptSensitiveData toyPrims exSt (some []) = [] :=
  ⟨rfl, rfl, rfl, rfl, rfl, rfl⟩

/-- C4 (counterexample): the claim fails on the `SensitiveData` facade: on
the constructor state the envelope step throws (null root key,
`Buffer.from(null, 'hex')`), and `aes128Sha256EncryptSensitiveData`'s
`catch` substitutes the empty string for that encryption error. -/
theorem claim_C4_counterexample :
    SensitiveData.aesCbcEncrypt toyPrims rnd0.ivEnvelope
      newSensitiveData.sensitiveRootKeyValue rnd0.dataKey = none ∧
    SensitiveData.aes128Sha256EncryptSensitiveData toyPrims newSensitiveData
      rnd0 (some ['a']) = [] :=
  ⟨rfl, rfl⟩

/-- C4 (amended): the `Encryption` facade surfaces every encryption
failure as a thrown error and never substitutes empty output: a successful
`encrypt` result is never the empty string (it always contains the `^`
separator).  The legacy `SensitiveData` facade violates the original
claim: its `catch` returns `''` (see the counterexample). -/
theorem claim_C4 (P : Prims) (st : SDState) (rnd : Rnd) (pt : Option Str)
    (r : Str) (h : Encryption.encrypt P st rnd pt = some r) : r ≠ [] :=
  Encryption.encrypt_some_ne_nil P st rnd pt r h

/-- The concrete `Encryption.encrypt` output. -/
def cExE : Str := (Encryption.encrypt toyPrims exSt rnd0 (some ['h', 'i'])).getD []

/-- Witness for C4. -/
theorem claim_C4_witness :
    Encryption.encrypt toyPrims exSt rnd0 (some ['h', 'i']) = some cExE ∧
    cExE ≠ [] :=
  ⟨by decide, claim_C4 toyPrims exSt rnd0 (some ['h', 'i']) cExE (by decide)⟩

/-- Shorthand: the character list of a string literal. -/
def sl (s : String) : Str := s.data

def pathC5 : Str := sl "[].contacts[].email"

def segsC5 : List PathSegment :=
  [⟨[], true, true⟩, ⟨sl "contacts", true, false⟩, ⟨sl "email", false, false⟩]

/-- A root array of two objects, each with a one-element `contacts` array
and an unaddressed `name` field. -/
def docC5 : JValue :=
  .arr
    [.obj [(sl "contacts", .arr [.obj [(sl "email", .str (sl "a@x"))]]),
       (sl "name", .str (sl "n1"))],
     .obj [(sl "contacts", .arr [.obj [(sl "email", .str (sl "b@y"))]]),
       (sl "name", .str (sl "n2"))]]

def fC5 : Str → Str := fun s => 'E' :: s

/-- `docC5` with exactly the two addressed email leaves transformed. -/
def docC5done : JValue :=
  .arr
    [.obj [(sl "contacts", .arr [.obj [(sl "email", .str ('E' :: sl "a@x"))]]),
       (sl "name", .str (sl "n1"))],
     .obj [(sl "contacts", .arr [.obj [(sl "email", .str ('E' :: sl "b@y"))]]),
       (sl "name", .str (sl "n2"))]]

def pathC5null : Str := sl "addresses[].city"

def segsC5null : List PathSegment :=
  [⟨sl "addresses", true, false⟩, ⟨sl "city", false, false⟩]

/-- A document whose `addresses` field is accidentally `null`. -/
def docC5null : JValue :=
  .obj [(sl "addresses", .null), (sl "city", .str (sl "keep"))]

/-- C5: (i) for every document and every segment list, the walk with a
total transform computes exactly the spec-level update `specWalk` — it
transforms exactly the addressed string leaves, leaves everything else
unchanged, and completes without error on null, absent, non-array,
non-object and non-string mismatches (which `specWalk` skips by
definition); (ii) on path `"[].contacts[].email"` over a root array of two
objects exactly the two email leaves are transformed; (iii) on path
`"addresses[].city"` over a document whose `addresses` is `null` the walk
completes and touches nothing. -/
theorem claim_C5 :
    (∀ (f : Str → Str) (segs : List PathSegment) (v : JValue),
      processJsonPath (totalSvc f) .decrypt segs v = some (specWalk f segs v)) ∧
    (parsePath pathC5 = some segsC5 ∧
      processJsonPath (totalSvc fC5) .decrypt segsC5 docC5 = some docC5done) ∧
    (parsePath pathC5null = some segsC5null ∧
      processJsonPath (totalSvc fC5) .decrypt segsC5null docC5null =
        some docC5null) :=
  ⟨fun f segs v => processJsonPath_decrypt_total_spec f segs v,
    ⟨by decide, rfl⟩, ⟨by decide, rfl⟩⟩

def svcFail : EncSvc := ⟨fun _ => none, fun _ => none⟩

def svcPart : EncSvc :=
  ⟨fun _ => none, fun s => if s = sl "bad" then none else some ('D' :: s)⟩

def segsC6 : List PathSegment :=
  [⟨sl "items", true, false⟩, ⟨sl "v", false, false⟩]

def docC6 : JValue :=
  .obj [(sl "items",
    .arr [.obj [(sl "v", .str (sl "bad"))], .obj [(sl "v", .str (sl "ok"))]])]

/-- `docC6` after a decrypt walk whose transform fails on `"bad"` only:
the failing leaf keeps its original value, the sibling leaf is
transformed. -/
def docC6dec : JValue :=
  .obj [(sl "items",
    .arr [.obj [(sl "v", .str (sl "bad"))],
      .obj [(sl "v", .str ('D' :: sl "ok"))]])]

/-- C6: (i) in decrypt mode a leaf transform failure never aborts the walk
(the walk always returns a document); (ii) in encrypt mode a leaf
transform failure on the first of two addressed leaves aborts the whole
walk with an error; (iii) in decrypt mode the same failing leaf is left
untouched and the walk continues to transform the remaining sibling
leaf. -/
theorem claim_C6 :
    (∀ (svc : EncSvc) (segs : List PathSegment) (v : JValue),
      (processJsonPath svc .decrypt segs v).isSome = true) ∧
    processJsonPath svcFail .encrypt segsC6 docC6 = none ∧
    processJsonPath svcPart .decrypt segsC6 docC6 = some docC6dec :=
  ⟨fun svc segs v => processJsonPath_decrypt_isSome svc segs v, rfl, rfl⟩

/-- C7: after a successful init with separator-free versions, every
successful `Encryption.encrypt` output passes the `isAlreadyEncrypted`
heuristic (four `^`-separated non-empty fields, 4-character version), and
the walker's encrypt-mode guard therefore skips such a leaf: walking a
document whose addressed leaf holds the ciphertext is a no-op, whatever
the service would do. -/
theorem claim_C7 (P : Prims) (hP : GoodPrims P) (cbc : Str)
    (rk : List (Str × Str)) (st : SDState) (rnd : Rnd) (s c : Str)
    (hinit : Encryption.init newSensitiveData cbc rk = some st)
    (hnc : rootKeysNoCaret rk = true) (hrnd : goodRnd rnd = true)
    (hs : s ≠ []) (henc : Encryption.encrypt P st rnd (some s) = some c) :
    isAlreadyEncrypted c = true ∧
    ∀ (svc : EncSvc) (v : JValue) (key : Str),
      jsGet v key = some (.str c) →
      processJsonPath svc .encrypt [⟨key, false, false⟩] v = some v := by
  obtain ⟨v0, k, hver, hval2, hget0, hv4, hvnc, hk32, hmk, hvmem, hub⟩ :=
    SensitiveData.init_current cbc rk st hinit hnc
  have hdkne := goodRnd_dataKey_ne_nil rnd hrnd
  have hvne : v0 ≠ [] := by
    intro h0
    rw [h0] at hv4
    cases hv4
  have hkne : k ≠ [] := by
    intro h0
    rw [h0] at hk32
    cases hk32
  have hshape := Encryption.eEncrypt_eq P st rnd s hs v0 k hver hval2 hvne
    hkne hdkne
  rw [henc] at hshape
  injection hshape with hc
  subst hc
  have hae := isAlreadyEncrypted_four v0
    (P.aesEnc k rnd.ivEnvelope rnd.dataKey) (P.sha256 s)
    (P.aesEnc rnd.dataKey rnd.ivSecret s) hv4 hvnc
    (hP.enc_no_caret k rnd.ivEnvelope rnd.dataKey)
    (hexLower_no_caret 64 _ (hP.sha_hex s))
    (hP.enc_no_caret rnd.dataKey rnd.ivSecret s)
    (hP.enc_ne_nil k rnd.ivEnvelope rnd.dataKey hdkne)
    (hexLower_ne_nil 64 _ (by decide) (hP.sha_hex s))
    (hP.enc_ne_nil rnd.dataKey rnd.ivSecret s hs)
  refine ⟨hae, ?_⟩
  intro svc v key hgetv
  by_cases hf : jsFalsy v = true
  · simp [processJsonPath, hf]
  · have hae2 := hae
    simp only [List.append_assoc, List.cons_append] at hae2
    simp [processJsonPath, hf, hgetv, hae2]

/-- Witness for C7 at the concrete ciphertext `cExE`. -/
theorem claim_C7_witness :
    isAlreadyEncrypted cExE = true ∧
    processJsonPath svcFail .encrypt [⟨sl "e", false, false⟩]
      (.obj [(sl "e", .str cExE)]) = some (.obj [(sl "e", .str cExE)]) :=
  ⟨(claim_C7 toyPrims toyPrims_good cbcKey0 exRootKeys exSt rnd0 ['h', 'i']
      cExE (by decide) (by decide) (by decide) (by decide) (by decide)).1,
    (claim_C7 toyPrims toyPrims_good cbcKey0 exRootKeys exSt rnd0 ['h', 'i']
      cExE (by decide) (by decide) (by decide) (by decide) (by decide)).2
      svcFail (.obj [(sl "e", .str cExE)]) (sl "e") rfl⟩

/-- C8: after a successful init, (i) the current version is a registered
version that is lexicographically greatest among the stored versions, and
every subsequent encrypt of a non-empty string emits it as the first
field; (ii) rotation is additive: a ciphertext produced under this state
decrypts correctly under any later-initialized state whose registry still
maps this state's current version to the same root key. -/
theorem claim_C8 (cbc : Str) (rk : List (Str × Str)) (st : SDState)
    (hinit : SensitiveData.initSensitiveKey newSensitiveData cbc rk = some st) :
    (∃ v, st.sensitiveRootKeyVersion = some v ∧
      v ∈ assocKeys st.sensitiveRootKey ∧
      (∀ w ∈ assocKeys st.sensitiveRootKey, lexLe w v = true) ∧
      (∀ (P : Prims) (rnd : Rnd) (s : Str), goodRnd rnd = true → s ≠ [] →
        ∃ restc,
          SensitiveData.aes128Sha256EncryptSensitiveData P st rnd (some s) =
            v ++ caret :: restc)) ∧
    (∀ (P : Prims) (rnd : Rnd) (s v k cbc2 : Str)
      (rk2 : List (Str × Str)) (st2 : SDState),
      GoodPrims P →
      rootKeysNoCaret rk = true →
      SensitiveData.initSensitiveKey newSensitiveData cbc2 rk2 = some st2 →
      st.sensitiveRootKeyVersion = some v →
      st.sensitiveRootKeyValue = some k →
      assocGet st2.sensitiveRootKey v = some k →
      goodRnd rnd = true →
      SensitiveData.aes128Sha256DecryptSensitiveData P st2
        (some (SensitiveData.aes128Sha256EncryptSensitiveData P st rnd
          (some s))) = s) := by
  obtain ⟨hmk, hcbcf, hentries, hkeysin, v0, hver0, hval0, hvmem0, hub0⟩ :=
    SensitiveData.initSensitiveKey_facts newSensitiveData cbc rk st rfl hinit
  obtain ⟨k0, hk0⟩ := Option.isSome_iff_exists.mp
    (assocGet_isSome_of_mem_keys _ v0 hvmem0)
  have hval0s : st.sensitiveRootKeyValue = some k0 := by rw [hval0, hk0]
  constructor
  · refine ⟨v0, hver0, hvmem0, hub0, ?_⟩
    intro P rnd s hrnd hs
    have hshape := SensitiveData.sdEncrypt_eq P st rnd s hs v0 k0 hver0 hval0s
      (goodRnd_dataKey_ne_nil rnd hrnd)
    refine ⟨P.aesEnc k0 rnd.ivEnvelope rnd.dataKey ++
      caret :: (P.sha256 s ++ caret :: P.aesEnc rnd.dataKey rnd.ivSecret s), ?_⟩
    rw [hshape]
    simp [List.append_assoc]
  · intro P rnd s v k cbc2 rk2 st2 hP hnc hinit2 hver hval hget2 hrnd
    have hvv : v = v0 := by
      rw [hver0] at hver
      exact (Option.some_inj.mp hver).symm
    subst hvv
    have hkk : k = k0 := by
      rw [hval0s] at hval
      exact (Option.some_inj.mp hval).symm
    subst hkk
    obtain ⟨pv, hpv, hpv2⟩ := List.mem_map.mp (hkeysin v hvmem0)
    have hvnc : caret ∉ v := by
      rw [← hpv2]
      exact rootKeysNoCaret_spec rk hnc pv hpv
    have hv4 : v.length = 4 := by
      simp only [assocKeys] at hvmem0
      obtain ⟨q, hq, hq2⟩ := List.mem_map.mp hvmem0
      have hqv := (hentries q hq).1
      rw [hq2] at hqv
      exact hqv
    have hvne : v ≠ [] := by
      intro h0
      rw [h0] at hv4
      cases hv4
    have hk16 : hexParsedBytes k = 16 :=
      (hentries (v, k) (assocGet_mem _ _ _ hk0)).2.2
    exact SensitiveData.decrypt_encrypt P hP st st2 rnd s v k hver0 hval0s
      hvne hvnc hget2 hk16 hrnd

/-- Second and third registry versions for the rotation witness. -/
def ver2 : Str := sl "0002"

def ver3 : Str := sl "0003"

def rootKeyHexB : Str := List.replicate 32 'b'

def rootKeyHexC : Str := List.replicate 32 'c'

def exRootKeys2 : List (Str × Str) :=
  [(defaultRootKeyVersion, rootKeyHex0), (ver2, rootKeyHexB)]

def exSt2 : SDState := ⟨some cbcKey0, exRootKeys2, some ver2, some rootKeyHexB⟩

def exRootKeys3 : List (Str × Str) :=
  [(defaultRootKeyVersion, rootKeyHex0), (ver2, rootKeyHexB), (ver3, rootKeyHexC)]

def exSt3 : SDState := ⟨some cbcKey0, exRootKeys3, some ver3, some rootKeyHexC⟩

/-- Witness for C8: with versions 0001 and 0002 the current version is
0002; a ciphertext produced then still decrypts after re-initialization
with the added current version 0003. -/
theorem claim_C8_witness :
    (∃ v, exSt2.sensitiveRootKeyVersion = some v ∧
      v ∈ assocKeys exSt2.sensitiveRootKey ∧
      (∀ w ∈ assocKeys exSt2.sensitiveRootKey, lexLe w v = true) ∧
      (∀ (P : Prims) (rnd : Rnd) (s : Str), goodRnd rnd = true → s ≠ [] →
        ∃ restc,
          SensitiveData.aes128Sha256EncryptSensitiveData P exSt2 rnd (some s) =
            v ++ caret :: restc)) ∧
    SensitiveData.aes128Sha256DecryptSensitiveData toyPrims exSt3
      (some (SensitiveData.aes128Sha256EncryptSensitiveData toyPrims exSt2
        rnd0 (some (sl "hi")))) = sl "hi" :=
  ⟨(claim_C8 cbcKey0 exRootKeys2 exSt2 (by decide)).1,
    (claim_C8 cbcKey0 exRootKeys2 exSt2 (by decide)).2 toyPrims rnd0 (sl "hi")
      ver2 rootKeyHexB cbcKey0 exRootKeys3 exSt3 toyPrims_good (by decide)
      (by decide) (by decide) (by decide) (by decide) (by decide)⟩

theorem splitCaret_shape_len (a env d sec : Str) (henv : caret ∉ env)
    (hd : caret ∉ d) (hsec : caret ∉ sec) :
    (splitCaret (a ++ caret :: env ++ caret :: d ++ caret :: sec)).length =
      a.count caret + 4 := by
  rw [splitCaret_length]
  have h1 : env.count caret = 0 := List.count_eq_zero.mpr henv
  have h2 : d.count caret = 0 := List.count_eq_zero.mpr hd
  have h3 : sec.count caret = 0 := List.count_eq_zero.mpr hsec
  simp only [List.count_append, List.count_cons, h1, h2, h3]
  simp

/-- The `SensitiveData` encrypt output never splits into exactly 2 fields:
failures return `''` (1 field) and successes contain at least 3
separators (at least 4 fields). -/
theorem SensitiveData.encrypt_never_two_fields (P : Prims) (hP : GoodPrims P)
    (st : SDState) (rnd : Rnd) (pt : Option Str) :
    (splitCaret
      (SensitiveData.aes128Sha256EncryptSensitiveData P st rnd pt)).length ≠ 2 := by
  match pt with
  | none => simp [SensitiveData.aes128Sha256EncryptSensitiveData, splitCaret]
  | some p =>
    by_cases hp : p = []
    · simp [SensitiveData.aes128Sha256EncryptSensitiveData, hp, splitCaret]
    · have hsec_nc := hP.enc_no_caret rnd.dataKey rnd.ivSecret p
      have hd_nc := hexLower_no_caret 64 _ (hP.sha_hex p)
      rcases hval : st.sensitiveRootKeyValue with _ | k
      · by_cases hdk : rnd.dataKey = []
        · -- the envelope step gets an empty "plaintext" and returns `''`
          -- without touching the null key: the output has 4 fields
          have hlen := splitCaret_shape_len
            (match st.sensitiveRootKeyVersion with
             | some v => v
             | none => ['n', 'u', 'l', 'l']) [] (P.sha256 p)
            (P.aesEnc rnd.dataKey rnd.ivSecret p) (by simp) hd_nc hsec_nc
          simp only [SensitiveData.aes128Sha256EncryptSensitiveData,
            SensitiveData.aesCbcEncrypt, if_neg hp, if_pos hdk, hval]
          rw [hlen]
          omega
        · -- the envelope step throws on the null key; encrypt returns `''`
          simp [SensitiveData.aes128Sha256EncryptSensitiveData,
            SensitiveData.aesCbcEncrypt, if_neg hp, if_neg hdk, hval, splitCaret]
      · by_cases hdk : rnd.dataKey = []
        · have hlen := splitCaret_shape_len
            (match st.sensitiveRootKeyVersion with
             | some v => v
             | none => ['n', 'u', 'l', 'l']) [] (P.sha256 p)
            (P.aesEnc rnd.dataKey rnd.ivSecret p) (by simp) hd_nc hsec_nc
          simp only [SensitiveData.aes128Sha256EncryptSensitiveData,
            SensitiveData.aesCbcEncrypt, if_neg hp, if_pos hdk, hval]
          rw [hlen]
          omega
        · have henv_nc := hP.enc_no_caret k rnd.ivEnvelope rnd.dataKey
          have hlen := splitCaret_shape_len
            (match st.sensitiveRootKeyVersion with
             | some v => v
             | none => ['n', 'u', 'l', 'l']) (P.aesEnc k rnd.ivEnvelope rnd.dataKey)
            (P.sha256 p) (P.aesEnc rnd.dataKey rnd.ivSecret p) henv_nc hd_nc hsec_nc
          simp only [SensitiveData.aes128Sha256EncryptSensitiveData,
            SensitiveData.aesCbcEncrypt, if_neg hp, if_neg hdk, hval]
          rw [hlen]
          omega

/-- A hand-built state whose master key is 32 hex characters (16 bytes),
the key length `aes-128-cbc` accepts: only on such a state — which
`initSensitiveKey` can never produce, since it demands a 64-character
master key — can the legacy decoder return a plaintext. -/
def stLegacy16 : SDState := ⟨some rootKeyHex0, [], none, none⟩

/-- A concrete well-formed legacy ciphertext: the default version `"0001"`,
one separator, a non-empty data field. -/
def legacyEx : Str := defaultRootKeyVersion ++ caret :: esc (sl "yo")

/-- Counterexample to C9 as stated: a well-formed legacy ciphertext (two
fields, version `"0001"`, non-empty data) presented to a successfully
initialized instance is NOT decrypted under the master key — it yields
`''` — because the validated master key decodes to 32 bytes while
`createDecipheriv('aes-128-cbc', ...)` accepts only 16-byte keys and
throws `ERR_CRYPTO_INVALID_KEYLEN`. -/
theorem claim_C9_counterexample :
    SensitiveData.initSensitiveKey newSensitiveData cbcKey0 exRootKeys =
      some exSt ∧
    splitCaret legacyEx = [defaultRootKeyVersion, esc (sl "yo")] ∧
    esc (sl "yo") ≠ [] ∧
    hexParsedBytes cbcKey0 = 32 ∧
    SensitiveData.aes128Sha256DecryptSensitiveData toyPrims exSt
      (some legacyEx) = [] :=
  ⟨by decide, by decide, by decide, by decide, by decide⟩

/-- C9, amended, over the `SensitiveData` facade: (i) a 2-field ciphertext
decrypts to a non-empty result only when its version equals the default
legacy version `"0001"` and its data field is non-empty, and the result is
then the direct master-key decryption of the data field (no envelope, no
digest check); (ii) under any successfully initialized instance that
attempt always fails: the stored master key is 64 hex characters (32
bytes) and the AES-128-CBC decryption primitive rejects every key that is
not 16 bytes, so every 2-field ciphertext decrypts to `''` — the legacy
path never returns a plaintext; (iii) the encrypt operation never produces
a 2-field output; (iv) after an init with separator-free versions its
output on non-empty input has exactly 4 fields. -/
theorem claim_C9 (P : Prims) (hP : GoodPrims P) :
    (∀ (st : SDState) (c v d2 : Str), splitCaret c = [v, d2] →
      SensitiveData.aes128Sha256DecryptSensitiveData P st (some c) ≠ [] →
      v = defaultRootKeyVersion ∧ d2 ≠ [] ∧
        SensitiveData.aes128Sha256DecryptSensitiveData P st (some c) =
          SensitiveData.aesCbcDecrypt P st.sensitiveDataKey d2) ∧
    (∀ (cbc : Str) (rk : List (Str × Str)) (st : SDState) (c v d2 : Str),
      decRejectsBadKeyLen P →
      SensitiveData.initSensitiveKey newSensitiveData cbc rk = some st →
      splitCaret c = [v, d2] →
      SensitiveData.aes128Sha256DecryptSensitiveData P st (some c) = []) ∧
    (∀ (st : SDState) (rnd : Rnd) (pt : Option Str),
      (splitCaret
        (SensitiveData.aes128Sha256EncryptSensitiveData P st rnd pt)).length ≠ 2) ∧
    (∀ (cbc : Str) (rk : List (Str × Str)) (st : SDState) (rnd : Rnd) (s : Str),
      SensitiveData.initSensitiveKey newSensitiveData cbc rk = some st →
      rootKeysNoCaret rk = true → goodRnd rnd = true → s ≠ [] →
      (splitCaret
        (SensitiveData.aes128Sha256EncryptSensitiveData P st rnd (some s))).length = 4) := by
  refine ⟨?_, ?_, ?_, ?_⟩
  · intro st c v d2 hsplit hne
    have hc : c ≠ [] := by
      intro h0
      rw [h0] at hsplit
      simp [splitCaret] at hsplit
    simp only [SensitiveData.aes128Sha256DecryptSensitiveData, if_neg hc,
      hsplit, SensitiveData.decryptSensitiveDataByDataKey] at hne ⊢
    by_cases hv : v = defaultRootKeyVersion
    · subst hv
      rw [if_neg (by simp)] at hne ⊢
      by_cases hd2 : d2 = []
      · rw [if_pos hd2] at hne
        exact absurd rfl hne
      · rw [if_neg hd2] at hne ⊢
        exact ⟨rfl, hd2, rfl⟩
    · rw [if_pos (by simp [hv])] at hne
      exact absurd rfl hne
  · intro cbc rk st c v d2 hstrict hinit hsplit
    obtain ⟨hmk, hcbcf, hentries, hkeysin, v0, hver0, hval0, hvmem0, hub0⟩ :=
      SensitiveData.initSensitiveKey_facts newSensitiveData cbc rk st rfl hinit
    have hc : c ≠ [] := by
      intro h0
      rw [h0] at hsplit
      simp [splitCaret] at hsplit
    have hbad : hexParsedBytes cbc ≠ 16 := by
      rw [hcbcf.2]
      decide
    simp only [SensitiveData.aes128Sha256DecryptSensitiveData, if_neg hc,
      hsplit, SensitiveData.decryptSensitiveDataByDataKey, hmk]
    by_cases hv : v = defaultRootKeyVersion
    · rw [if_neg (by simp [hv])]
      by_cases hd2 : d2 = []
      · rw [if_pos hd2]
      · rw [if_neg hd2]
        simp only [SensitiveData.aesCbcDecrypt, if_neg hd2,
          hstrict cbc d2 hbad, Option.getD_none]
    · rw [if_pos (by simp [hv])]
  · intro st rnd pt
    exact SensitiveData.encrypt_never_two_fields P hP st rnd pt
  · intro cbc rk st rnd s hinit hnc hrnd hs
    obtain ⟨v0, k, hver, hval2, hget0, hv4, hvnc, hk32, hk16, hmk, hvmem, hub⟩ :=
      SensitiveData.init_current cbc rk st hinit hnc
    have hshape := SensitiveData.sdEncrypt_eq P st rnd s hs v0 k hver hval2
      (goodRnd_dataKey_ne_nil rnd hrnd)
    rw [hshape, splitCaret_four _ _ _ _ hvnc
      (hP.enc_no_caret k rnd.ivEnvelope rnd.dataKey)
      (hexLower_no_caret 64 _ (hP.sha_hex s))
      (hP.enc_no_caret rnd.dataKey rnd.ivSecret s)]
    rfl

/-- Witness for C9: on a hand-built state whose master key is 16 bytes the
legacy decoder does run (showing part (i) non-vacuous); on the initialized
state `exSt` the same well-formed legacy ciphertext yields `''`; the
concrete encrypt output has 4 fields, never 2. -/
theorem claim_C9_witness :
    (defaultRootKeyVersion = defaultRootKeyVersion ∧ esc (sl "yo") ≠ [] ∧
      SensitiveData.aes128Sha256DecryptSensitiveData toyPrims stLegacy16
        (some legacyEx) =
        SensitiveData.aesCbcDecrypt toyPrims stLegacy16.sensitiveDataKey
          (esc (sl "yo"))) ∧
    SensitiveData.aes128Sha256DecryptSensitiveData toyPrims exSt
      (some legacyEx) = [] ∧
    (splitCaret (SensitiveData.aes128Sha256EncryptSensitiveData toyPrims exSt
      rnd0 (some (sl "hi")))).length ≠ 2 ∧
    (splitCaret (SensitiveData.aes128Sha256EncryptSensitiveData toyPrims exSt
      rnd0 (some (sl "hi")))).length = 4 :=
  ⟨(claim_C9 toyPrims toyPrims_good).1 stLegacy16 legacyEx
      defaultRootKeyVersion (esc (sl "yo")) (by decide) (by decide),
    (claim_C9 toyPrims toyPrims_good).2.1 cbcKey0 exRootKeys exSt legacyEx
      defaultRootKeyVersion (esc (sl "yo")) toyPrims_strict (by decide)
      (by decide),
    (claim_C9 toyPrims toyPrims_good).2.2.1 exSt rnd0 (some (sl "hi")),
    (claim_C9 toyPrims toyPrims_good).2.2.2 cbcKey0 exRootKeys exSt rnd0
      (sl "hi") (by decide) (by decide) (by decide) (by decide)⟩

/-- Every segment after the head carries no root-array flag. -/
def tailNoRoot : List PathSegment → Prop
  | [] => True
  | _ :: t => ∀ seg ∈ t, seg.isRootArray = false

theorem tailNoRoot_append (l : List PathSegment) (x : PathSegment)
    (hx : x.isRootArray = false) (hl : tailNoRoot l) :
    tailNoRoot (l ++ [x]) := by
  cases l with
  | nil =>
    intro seg hs
    cases hs
  | cons h t =>
    intro seg hs
    rcases List.mem_append.mp hs with h2 | h2
    · exact hl seg h2
    · rcases List.mem_cons.mp h2 with h3 | h3
      · subst h3; exact hx
      · cases h3

theorem mem_setLastArray (l : List PathSegment) (seg : PathSegment)
    (h : seg ∈ setLastArray l) : seg ∈ l ∨ seg.isRootArray = false := by
  induction l with
  | nil => cases h
  | cons s rest ih =>
    cases rest with
    | nil =>
      simp only [setLastArray] at h
      rcases List.mem_cons.mp h with h2 | h2
      · subst h2
        exact Or.inr rfl
      · cases h2
    | cons s2 t =>
      rcases List.mem_cons.mp h with h2 | h2
      · subst h2
        exact Or.inl (List.mem_cons_self _ _)
      · rcases ih h2 with h3 | h3
        · exact Or.inl (List.mem_cons_of_mem _ h3)
        · exact Or.inr h3

theorem tailNoRoot_setLastArray (l : List PathSegment)
    (hl : tailNoRoot l) : tailNoRoot (setLastArray l) := by
  cases l with
  | nil => trivial
  | cons s rest =>
    cases rest with
    | nil =>
      intro seg hs
      cases hs
    | cons s2 t =>
      show ∀ seg ∈ setLastArray (s2 :: t), seg.isRootArray = false
      intro seg hs
      rcases mem_setLastArray _ _ hs with h2 | h2
      · exact hl seg h2
      · exact h2

theorem scanLoop_tailNoRoot (cs : Str) :
    ∀ (acc : List PathSegment) (cur : Str) (inB : Bool),
      tailNoRoot acc → tailNoRoot (scanLoop cs acc cur inB) := by
  induction cs with
  | nil =>
    intro acc cur inB hacc
    simp only [scanLoop]
    split
    · exact hacc
    · exact tailNoRoot_append acc _ rfl hacc
  | cons ch rest ih =>
    intro acc cur inB hacc
    simp only [scanLoop]
    split
    · split
      · exact ih _ _ _ (tailNoRoot_append acc _ rfl hacc)
      · split
        · exact ih _ _ _ (tailNoRoot_setLastArray acc hacc)
        · exact ih _ _ _ hacc
    · split
      · exact ih _ _ _ hacc
      · split
        · split
          · exact ih _ _ _ (tailNoRoot_append acc _ rfl hacc)
          · exact ih _ _ _ hacc
        · exact ih _ _ _ hacc

theorem scanPath_tailNoRoot (path : Str) : tailNoRoot (scanPath path) := by
  match path with
  | [] => exact scanLoop_tailNoRoot [] [] [] false trivial
  | [c] =>
    simp only [scanPath]
    exact scanLoop_tailNoRoot _ [] [] false trivial
  | c1 :: c2 :: rest =>
    simp only [scanPath]
    split
    · rename_i rest2 heq
      split
      · intro seg hs
        cases hs
      · split
        · exact scanLoop_tailNoRoot _ _ [] false (by intro seg hs; cases hs)
        · exact scanLoop_tailNoRoot _ _ [] false (by intro seg hs; cases hs)
    · exact scanLoop_tailNoRoot _ [] [] false trivial

theorem tailNoRoot_get (l : List PathSegment) (hl : tailNoRoot l) :
    ∀ (i : Nat) (h : i < l.length), 0 < i →
      (l.get ⟨i, h⟩).isRootArray = false := by
  cases l with
  | nil =>
    intro i h
    cases h
  | cons s t =>
    intro i h hpos
    match i, hpos with
    | j + 1, _ =>
      have : (s :: t).get ⟨j + 1, h⟩ = t.get ⟨j, Nat.lt_of_succ_lt_succ h⟩ := rfl
      rw [this]
      exact hl _ (t.get_mem _ _)

/-- C10: (i) for every path on which `parsePath` succeeds, only the first
returned segment may carry the root-array flag, and a segment's key is
empty only when that segment is the root-array marker; (ii) whenever the
scan leaves any non-root segment with an empty key, `parsePath` throws
(`Invalid path format`). -/
theorem claim_C10 :
    (∀ (path : Str) (segs : List PathSegment),
      parsePath path = some segs →
      (∀ (i : Nat) (h : i < segs.length), 0 < i →
        (segs.get ⟨i, h⟩).isRootArray = false) ∧
      (∀ seg ∈ segs, seg.key = [] → seg.isRootArray = true)) ∧
    (∀ path : Str,
      (scanPath path).any (fun s => s.key.isEmpty && !s.isRootArray) = true →
      parsePath path = none) := by
  constructor
  · intro path segs hparse
    simp only [parsePath] at hparse
    split at hparse
    · cases hparse
    · rename_i hany
      cases hparse
      constructor
      · exact tailNoRoot_get _ (scanPath_tailNoRoot path)
      · intro seg hs hkey
        rw [List.any_eq_true] at hany
        push_neg at hany
        have := hany seg hs
        rcases Bool.eq_false_or_eq_true seg.isRootArray with h2 | h2
        · exact h2
        · exfalso
          apply this
          simp [hkey, h2]
  · intro path hany
    simp [parsePath, hany]

/-- Witness for C10 at the concrete paths `"[].contacts[].email"`
(parses; only the head is the root marker and only it has an empty key)
and `"[][]"` (the scan strips the root flag from the promoted segment,
leaving an empty-keyed non-root segment, so parsing throws). -/
theorem claim_C10_witness :
    ((∀ (i : Nat) (h : i < segsC5.length), 0 < i →
        (segsC5.get ⟨i, h⟩).isRootArray = false) ∧
      (∀ seg ∈ segsC5, seg.key = [] → seg.isRootArray = true)) ∧
    parsePath (sl "[][]") = none :=
  ⟨claim_C10.1 pathC5 segsC5 (by decide), claim_C10.2 (sl "[][]") (by decide)⟩
